import Mathlib

/-!
# Verification of the metacognition belief-engine (`scripts/metacognition.py`)

Shallow embedding of the core operations of the engine: ingestion with
deduplication (`add`), the feedback loop (`feedback`), time decay (`decay`),
the curiosity lifecycle (`evolve_curiosity`, `resolve_curiosity`), lens
selection (`get_active`, `compile_lens`) and boot injection
(`inject_into_boot`).

Modelling conventions:
* Python floats are modelled as exact rationals (`ℚ`); decimal literals such
  as `0.15` denote the exact rational.
* Timestamps (ISO strings in the source, compared lexicographically, which for
  a fixed format agrees with chronological order) are modelled as rationals
  counting seconds; `datetime.now()` is passed in explicitly as a `now`
  parameter, and `_gen_id` as a `newId` parameter.
* The transcendental `0.5 ** x` used by `decay` is not computable over `ℚ`,
  so `decay` is parametrised by an oracle `hp : ℚ → ℚ` standing for
  `fun x => (0.5 : ℝ) ^ x`; theorems that need its range assume `0 ≤ hp x ≤ 1`.
* Python strings are modelled as `String` (with all character-level work done
  on `String.data : List Char`); `str.lower` is modelled on ASCII letters.
* The boot document is modelled as a `List Char`; a missing file is `none`.
* Python values that may be a string or a list (the `evidence` argument of
  `add`, which `resolve_curiosity` calls with a list) are modelled by the
  inductive `Evid`; Python truthiness of such a value is `Evid.truthy`.
-/

namespace MC

/-- Python's builtin `min` on two floats (reduces in the kernel, unlike the
lattice `min` on `ℚ`); equal to `min` — see `pyMin_eq`. -/
def pyMin (a b : ℚ) : ℚ := if a ≤ b then a else b

/-- Python's builtin `max` on two floats; equal to `max` — see `pyMax_eq`. -/
def pyMax (a b : ℚ) : ℚ := if a ≤ b then b else a

/-- ASCII whitespace, as stripped by Python's `str.strip`. -/
def isWs (c : Char) : Bool :=
  c = ' ' || c = '\t' || c = '\n' || c = '\r' || c = '\x0b' || c = '\x0c'

/-- Python `str.lstrip` on a character list. -/
def lstripL (s : List Char) : List Char := s.dropWhile isWs

/-- Python `str.rstrip` on a character list. -/
def rstripL (s : List Char) : List Char := (s.reverse.dropWhile isWs).reverse

/-- Python `str.strip` on a character list. -/
def stripL (s : List Char) : List Char := lstripL (rstripL s)

/-- ASCII lower-casing of one character (Python `str.lower` restricted to
ASCII, which covers the engine's contents). -/
def lowerChar (c : Char) : Char :=
  if 'A' ≤ c && c ≤ 'Z' then Char.ofNat (c.toNat + 32) else c

/-- Python `str.split()` (split on whitespace runs, dropping empty words),
on a character list.  `acc` accumulates the current word reversed. -/
def splitWsAux : List Char → List Char → List (List Char)
  | [], acc => if acc = [] then [] else [acc.reverse]
  | c :: r, acc =>
    if isWs c then
      (if acc = [] then splitWsAux r [] else acc.reverse :: splitWsAux r [])
    else splitWsAux r (c :: acc)

def splitWs (s : List Char) : List (List Char) := splitWsAux s []

/-- `set(content.lower().split())` from the dedup check in `add`. -/
def wordSet (s : String) : Finset (List Char) :=
  (splitWs (s.data.map lowerChar)).toFinset

/-- `len(e_words & n_words) / max(len(e_words | n_words), 1)` — the word-set
Jaccard similarity used by the dedup loop in `add`. -/
def overlap (a b : String) : ℚ :=
  ((wordSet a ∩ wordSet b).card : ℚ) / pyMax ((wordSet a ∪ wordSet b).card : ℚ) 1

/-- A Python value passed as `evidence`: either a string or a list (the
`resolve_curiosity` path passes the source entry's evidence list).  Lists
are encoded as cons-trees (`nilE`/`consE`) rather than `List Evid` so that
`DecidableEq` can be derived and kernel-evaluated; `Evid.ofList` injects a
`List Evid`.  Python `==` on such values agrees with equality of the
encoding. -/
inductive Evid where
  | str : String → Evid
  | nilE : Evid
  | consE : Evid → Evid → Evid
deriving DecidableEq, Repr

/-- Encode a Python list of evidence values as a single `Evid` value. -/
def Evid.ofList (l : List Evid) : Evid := l.foldr Evid.consE Evid.nilE

/-- Python truthiness of an `evidence` value (empty string and empty list
are falsy). -/
def Evid.truthy : Evid → Bool
  | .str s => !(s = "")
  | .nilE => false
  | .consE _ _ => true

/-- Truthiness of an optional `evidence` argument (`None` is falsy). -/
def evTruthy : Option Evid → Bool
  | none => false
  | some v => v.truthy

/-- One record of the per-entry `feedback` audit list. -/
structure FbRec where
  time : ℚ
  direction : ℤ
  context : Option String
deriving DecidableEq, Repr

/-- One record of the document-level `feedback_log`. -/
structure LogRec where
  time : ℚ
  direction : ℤ
  context : Option String
  entry_ids : Option (List String)
deriving DecidableEq, Repr

/-- The `meta` sub-document. -/
structure DocMeta where
  total_decisions : Nat
  total_corrections : Nat
  accuracy_by_domain : List (String × ℚ)
deriving DecidableEq, Repr

/-- One belief entry (the dict built in `add`). -/
structure Entry where
  id : String
  type : String
  content : String
  confidence : ℚ
  evidence : List Evid
  source : Option String
  domain : Option String
  trace : List String
  feedback : List FbRec
  reinforcements : Nat
  strength : ℚ
  created : ℚ
  last_touched : ℚ
  resolved : Bool
  lifecycle : Option String
deriving DecidableEq, Repr

/-- The persisted document (`load_db` / `save_db` payload). -/
structure Doc where
  entries : List Entry
  feedback_log : List LogRec
  meta : DocMeta
deriving DecidableEq, Repr

/-- The empty document produced by `_default_db`. -/
def defaultDb : Doc :=
  { entries := [], feedback_log := [],
    meta := { total_decisions := 0, total_corrections := 0, accuracy_by_domain := [] } }

/-- The keys of `ENTRY_TYPES`. -/
def ENTRY_TYPES : List String :=
  ["perception", "override", "protection", "self_obs", "decision", "curiosity"]

/-- The per-type compilation limits `LIMITS`. -/
def LIMITS (ty : String) : Nat :=
  if ty = "perception" then 5
  else if ty = "override" then 5
  else if ty = "protection" then 4
  else if ty = "self_obs" then 3
  else if ty = "curiosity" then 3
  else 0

def DECAY_HALF_LIFE_DAYS : ℚ := 7
def MIN_STRENGTH : ℚ := 0.10

/-- The dedup condition of the loop in `add`: same type, unresolved, and
word-overlap strictly above `0.5`.  `content` is the already
stripped-and-truncated new content. -/
def simMatch (ty : String) (content : String) (e : Entry) : Prop :=
  e.type = ty ∧ e.resolved = false ∧ 0.5 < overlap e.content content

instance (ty content : String) (e : Entry) : Decidable (simMatch ty content e) := by
  unfold simMatch; infer_instance

/-- The conditional evidence append performed on a dedup merge:
`if evidence and evidence not in (existing.get('evidence') or []): …append`. -/
def condAppendEvid (evidence : Option Evid) (ev : List Evid) : List Evid :=
  match evidence with
  | some v => if v.truthy ∧ v ∉ ev then ev ++ [v] else ev
  | none => ev

/-- The in-place mutation a dedup merge applies to the matched entry. -/
def mergeInto (evidence : Option Evid) (now : ℚ) (e : Entry) : Entry :=
  { e with reinforcements := e.reinforcements + 1,
           strength := pyMin 1.0 (e.strength + 0.1),
           last_touched := now,
           evidence := condAppendEvid evidence e.evidence }

/-- The dedup loop of `add`: walk the entry list, merge into the first
similar unresolved same-type entry; `none` if no entry matches. -/
def mergeFirst (ty content : String) (evidence : Option Evid) (now : ℚ) :
    List Entry → Option (List Entry × Entry)
  | [] => none
  | e :: rest =>
    if simMatch ty content e then
      let e' := mergeInto evidence now e
      some (e' :: rest, e')
    else
      match mergeFirst ty content evidence now rest with
      | some (l, m) => some (e :: l, m)
      | none => none

/-- `lifecycle or ('born' if entry_type == 'curiosity' else None)`. -/
def lcDefault (ty : String) (lc : Option String) : Option String :=
  match lc with
  | some l => if l = "" then (if ty = "curiosity" then some "born" else none) else some l
  | none => if ty = "curiosity" then some "born" else none

/-- `str(content).strip()[:500]` — the content normalisation in `add`. -/
def procC (s : String) : String := String.mk ((stripL s.data).take 500)

/-- The fresh entry dict built by `add` (with `confidence` already clamped
and `content'` already stripped and truncated). -/
def newEntry (entry_type content' : String) (confidence : ℚ)
    (evidence : Option Evid) (source domain : Option String)
    (trace : Option (List String)) (lifecycle : Option String)
    (now : ℚ) (newId : String) : Entry :=
  { id := newId, type := entry_type, content := content',
    confidence := confidence,
    evidence := match evidence with
                | some v => if v.truthy then [v] else []
                | none => [],
    source := source, domain := domain, trace := trace.getD [],
    feedback := [], reinforcements := 1, strength := confidence,
    created := now, last_touched := now, resolved := false,
    lifecycle := lcDefault entry_type lifecycle }

/-- `add(entry_type, content, confidence, evidence, source, domain, trace,
lifecycle)`.  Returns the updated document and the affected entry
(`none` models Python `None` for invalid type / empty content). -/
def add (db : Doc) (entry_type content : String) (confidence : ℚ)
    (evidence : Option Evid) (source domain : Option String)
    (trace : Option (List String)) (lifecycle : Option String)
    (now : ℚ) (newId : String) : Doc × Option Entry :=
  if entry_type ∉ ENTRY_TYPES then (db, none)
  else if stripL content.data = [] then (db, none)
  else
    let content' : String := procC content
    let confidence := pyMax 0.0 (pyMin 1.0 confidence)
    match mergeFirst entry_type content' evidence now db.entries with
    | some (l, m) => ({ db with entries := l }, some m)
    | none =>
      let entry : Entry :=
        newEntry entry_type content' confidence evidence source domain trace
          lifecycle now newId
      let meta' :=
        if entry_type = "decision" then
          { db.meta with total_decisions := db.meta.total_decisions + 1 }
        else db.meta
      ({ db with entries := db.entries ++ [entry], meta := meta' }, some entry)

/-- Stable descending insertion: insert `a` before the first element whose
key is `≤ key a`.  `foldr insDesc []` is then exactly Python's stable
`list.sort(key=…, reverse=True)`: among equal keys, earlier list elements
stay first. -/
def insDesc {α : Type} (key : α → ℚ) (a : α) : List α → List α
  | [] => [a]
  | b :: l => if key b ≤ key a then a :: b :: l else b :: insDesc key a l

/-- Python's stable `list.sort(key=…, reverse=True)`. -/
def sortDesc {α : Type} (key : α → ℚ) (l : List α) : List α :=
  l.foldr (insDesc key) []

/-- `next((e for e in entries if p e), None)`. -/
def findFirst (p : Entry → Bool) : List Entry → Option Entry :=
  List.find? p

/-- Apply `f` to the first entry satisfying `p` (the in-place mutation of
the object returned by `next(…)`). -/
def updateFirst (p : Entry → Bool) (f : Entry → Entry) : List Entry → List Entry
  | [] => []
  | e :: r => if p e then f e :: r else e :: updateFirst p f r

/-- The per-target mutation performed by `feedback`. -/
def applyFb (now : ℚ) (direction : ℤ) (context : Option String) (e : Entry) : Entry :=
  let e1 := { e with feedback := e.feedback ++ [({ time := now, direction := direction, context := context } : FbRec)] }
  let e2 :=
    if direction > 0 then
      { e1 with strength := pyMin 1.0 (e1.strength + 0.15),
                reinforcements := e1.reinforcements + 1 }
    else
      { e1 with strength := pyMax 0.05 (e1.strength - 0.25) }
  { e2 with last_touched := now }

/-- Default target selection of `feedback` (no ids given): the indices of
the five unresolved entries with the most recent `last_touched`,
most-recent first (stable descending sort, then `[:5]`). -/
def defaultTargets (entries : List Entry) : List Nat :=
  ((sortDesc (fun p => p.2.last_touched)
      (entries.enum.filter (fun p => p.2.resolved = false))).take 5).map Prod.fst

/-- Target selection of `feedback`: explicit ids when `entry_ids` is truthy
(a non-`None`, non-empty list), else the default targets. -/
def fbTargets (entries : List Entry) (entry_ids : Option (List String)) : List Nat :=
  match entry_ids with
  | some ids =>
    if ids = [] then defaultTargets entries
    else (entries.enum.filter (fun p => p.2.id ∈ ids)).map Prod.fst
  | none => defaultTargets entries

/-- `feedback(direction, context, entry_ids)`.  Returns the updated document
and `len(targets)`. -/
def feedback (db : Doc) (direction : ℤ) (context : Option String)
    (entry_ids : Option (List String)) (now : ℚ) : Doc × Nat :=
  let log := db.feedback_log ++
    [({ time := now, direction := direction, context := context, entry_ids := entry_ids } : LogRec)]
  let meta' :=
    if direction < 0 then
      { db.meta with total_corrections := db.meta.total_corrections + 1 }
    else db.meta
  let ts := fbTargets db.entries entry_ids
  let entries :=
    db.entries.enum.map (fun p => if p.1 ∈ ts then applyFb now direction context p.2 else p.2)
  ({ db with entries := entries, feedback_log := log, meta := meta' }, ts.length)

/-- The per-entry step of `decay`.  `hp x` abstracts `0.5 ** x` (see the
header); `now` and `last_touched` are in seconds. -/
def decayEntry (hp : ℚ → ℚ) (now : ℚ) (e : Entry) : Entry :=
  if e.resolved = true ∨ e.lifecycle = some "dormant" then e
  else
    let days_old := (now - e.last_touched) / 86400
    if days_old < 0.1 then e
    else
      let effective_half_life := DECAY_HALF_LIFE_DAYS * (1 + (e.reinforcements : ℚ) * 0.3)
      let decay_factor := hp (days_old / effective_half_life)
      let base_strength := e.confidence
      let s := pyMax MIN_STRENGTH (base_strength * decay_factor)
      let lc := if s < 0.15 ∧ e.type = "curiosity" then some "dormant" else e.lifecycle
      { e with strength := s, lifecycle := lc }

/-- `decay()`: time-based decay over all entries. -/
def decay (hp : ℚ → ℚ) (now : ℚ) (db : Doc) : Doc :=
  { db with entries := db.entries.map (decayEntry hp now) }

/-- `if new_content: entry['content'] = new_content[:500]` in
`evolve_curiosity`. -/
def evolveContent (new_content : Option String) (e : Entry) : Entry :=
  match new_content with
  | some nc => if nc = "" then e else { e with content := ⟨nc.data.take 500⟩ }
  | none => e

/-- `if evidence: entry['evidence'].append(evidence)` in `evolve_curiosity`. -/
def evolveEvidence (evidence : Option Evid) (e : Entry) : Entry :=
  match evidence with
  | some v => if v.truthy then { e with evidence := e.evidence ++ [v] } else e
  | none => e

/-- The mutation `evolve_curiosity` applies to the found curiosity entry
(the lifecycle step reads the lifecycle as it was before the call, which is
also what the source's `current = entry.get('lifecycle', 'born')` captures
before any mutation). -/
def evolveEntry (new_content : Option String) (evidence : Option Evid) (now : ℚ)
    (e : Entry) : Entry :=
  let e2 := evolveEvidence evidence (evolveContent new_content e)
  let e3 :=
    if e.lifecycle = some "born" then { e2 with lifecycle := some "active" }
    else if e.lifecycle = some "active" ∧ evTruthy evidence then
      { e2 with lifecycle := some "evolving" }
    else e2
  { e3 with last_touched := now, reinforcements := e3.reinforcements + 1 }

/-- `evolve_curiosity(curiosity_id, new_content, evidence)`. -/
def evolve_curiosity (db : Doc) (cid : String) (new_content : Option String)
    (evidence : Option Evid) (now : ℚ) : Doc × Option Entry :=
  match findFirst (fun e => e.id == cid) db.entries with
  | none => (db, none)
  | some e =>
    if e.type ≠ "curiosity" then (db, none)
    else
      let f := evolveEntry new_content evidence now
      ({ db with entries := updateFirst (fun x => x.id == cid) f db.entries }, some (f e))

/-- `resolve_curiosity(curiosity_id, resolution_content, becomes_type)`:
mark the source entry resolved (note: no type check in the source), then
run the resolution content through `add` with confidence `0.8`, the
source's evidence list (as one Python value), inherited domain, and
`trace=[curiosity_id]`. -/
def markResolved (now : ℚ) (x : Entry) : Entry :=
  { x with resolved := true, lifecycle := some "resolved", last_touched := now }

def resolve_curiosity (db : Doc) (cid : String) (resolution_content : String)
    (becomes_type : String) (now : ℚ) (newId : String) : Doc × Option Entry :=
  match findFirst (fun e => e.id == cid) db.entries with
  | none => (db, none)
  | some e =>
    let db1 := { db with
      entries := updateFirst (fun x => x.id == cid) (markResolved now) db.entries }
    add db1 becomes_type resolution_content 0.8 (some (Evid.ofList e.evidence))
      (some ("resolved from " ++ cid)) e.domain (some [cid]) none now newId

/-- `get_active(entry_type, limit, min_strength)`: unresolved entries of the
given type with `strength ≥ min_strength`, ranked descending by
`strength * reinforcements` (stable), truncated to `limit`. -/
def get_active (db : Doc) (entry_type : Option String) (limit : Nat)
    (min_strength : ℚ) : List Entry :=
  let entries := db.entries.filter (fun e =>
    decide (e.resolved = false ∧ min_strength ≤ e.strength ∧
      (entry_type = none ∨ entry_type = some e.type)))
  (sortDesc (fun e => e.strength * (e.reinforcements : ℚ)) entries).take limit

/-- The per-type selections `compile_lens` surfaces (the lens body lists
exactly these entries, in this order; `decision` has limit 0 and is never
queried). -/
structure LensSel where
  perceptions : List Entry
  overrides : List Entry
  protections : List Entry
  self_obs : List Entry
  curiosities : List Entry
deriving DecidableEq, Repr

/-- The entry-selection core of `compile_lens()`: run `decay()` first, then
select per type under the `LIMITS` budgets with the default
`min_strength = 0.15`.  (The textual rendering around these lists is not
modelled; the lens text lists exactly the selected entries.) -/
def compile_lens (hp : ℚ → ℚ) (now : ℚ) (db : Doc) : Doc × LensSel :=
  let db' := decay hp now db
  (db',
   { perceptions := get_active db' (some "perception") (LIMITS "perception") 0.15,
     overrides := get_active db' (some "override") (LIMITS "override") 0.15,
     protections := get_active db' (some "protection") (LIMITS "protection") 0.15,
     self_obs := get_active db' (some "self_obs") (LIMITS "self_obs") 0.15,
     curiosities := get_active db' (some "curiosity") (LIMITS "curiosity") 0.15 })

def START_MARKER : List Char := "<!-- LIVE_STATE_START -->".toList

def END_MARKER : List Char := "<!-- LIVE_STATE_END -->".toList

/-- The heading line inside the injected block. -/
def LS_HEADING : List Char := "## 📊 LIVE STATE (Auto-Generated — Do Not Edit)".toList

/-- Does `pat` occur at the head of `s`? -/
def hmAt (pat s : List Char) : Bool := decide (s.take pat.length = pat)

/-- Python `str.index` / `in`: index of the first occurrence of `pat`
(assumed non-empty) in `s`, `none` when absent. -/
def findMark (pat : List Char) : List Char → Option Nat
  | [] => none
  | c :: r => if hmAt pat (c :: r) then some 0 else (findMark pat r).map (· + 1)

/-- The f-string block built by `inject_into_boot`:
`"\n{START}\n{heading}\n\n{system_evidence}\n\n{lens}\n{END}\n"`. -/
def mkBlock (system_evidence lens : List Char) : List Char :=
  ['\n'] ++ START_MARKER ++ ['\n'] ++ LS_HEADING ++ ['\n', '\n'] ++ system_evidence ++
    ['\n', '\n'] ++ lens ++ ['\n'] ++ END_MARKER ++ ['\n']

/-- The separator used when the markers are absent (`"\n\n---\n"`). -/
def SEP : List Char := "\n\n---\n".toList

/-- `inject_into_boot(system_evidence)` with the compiled lens passed in
explicitly.  `boot = none` models a missing `BOOT.md` (the function returns
`False` and writes nothing); `some c` is the file's content, and the result
is the rewritten content. -/
def inject_into_boot (boot : Option (List Char)) (system_evidence lens : List Char) :
    Option (List Char) :=
  match boot with
  | none => none
  | some content =>
    let block := mkBlock system_evidence lens
    match findMark START_MARKER content, findMark END_MARKER content with
    | some start_idx, some e_idx =>
      let end_idx := e_idx + END_MARKER.length
      some (content.take start_idx ++ stripL block ++ content.drop end_idx)
    | _, _ => some (rstripL content ++ SEP ++ block)

/-- `pat` occurs in `s` at position `i` (the substring-occurrence predicate
underlying Python's `in` and `.index`). -/
def occAt (pat s : List Char) (i : Nat) : Prop := (s.drop i).take pat.length = pat

instance occAt.dec (pat s : List Char) (i : Nat) : Decidable (occAt pat s i) :=
  inferInstanceAs (Decidable ((s.drop i).take pat.length = pat))

/-- `mkBlock` minus its leading and trailing newline: the result of
`block.strip()`, i.e. exactly what the marker branch splices in. -/
def coreBlock (ev lens : List Char) : List Char :=
  START_MARKER ++ '\n' ::
    (LS_HEADING ++ '\n' :: '\n' :: (ev ++ '\n' :: '\n' :: (lens ++ '\n' :: END_MARKER)))

/-- `coreBlock` minus its trailing `END_MARKER`. -/
def CPRE (ev lens : List Char) : List Char :=
  START_MARKER ++ '\n' ::
    (LS_HEADING ++ '\n' :: '\n' :: (ev ++ '\n' :: '\n' :: (lens ++ ['\n'])))

/-! ## Basic lemmas about the helpers -/

theorem pyMin_eq (a b : ℚ) : pyMin a b = min a b := by
  rw [pyMin, min_def]

theorem pyMax_eq (a b : ℚ) : pyMax a b = max a b := by
  rw [pyMax, max_def]

theorem pyMin_le_left (a b : ℚ) : pyMin a b ≤ a := by
  rw [pyMin_eq]; exact min_le_left a b

theorem le_pyMax_left (a b : ℚ) : b ≤ pyMax a b := by
  rw [pyMax_eq]; exact le_max_right a b

/-! ## Lemmas about the stable descending sort -/

theorem insDesc_perm {α : Type} (key : α → ℚ) (a : α) (l : List α) :
    (insDesc key a l).Perm (a :: l) := by
  induction l with
  | nil => simp [insDesc]
  | cons b t ih =>
    by_cases h : key b ≤ key a
    · simp [insDesc, h]
    · simp only [insDesc, if_neg h]
      exact ((ih.cons b).trans (List.Perm.swap a b t))

theorem sortDesc_perm {α : Type} (key : α → ℚ) (l : List α) :
    (sortDesc key l).Perm l := by
  induction l with
  | nil => simp [sortDesc]
  | cons a t ih =>
    have : sortDesc key (a :: t) = insDesc key a (sortDesc key t) := rfl
    rw [this]
    exact (insDesc_perm key a (sortDesc key t)).trans (ih.cons a)

theorem sortDesc_length {α : Type} (key : α → ℚ) (l : List α) :
    (sortDesc key l).length = l.length :=
  (sortDesc_perm key l).length_eq

theorem mem_sortDesc {α : Type} (key : α → ℚ) (l : List α) (x : α) :
    x ∈ sortDesc key l ↔ x ∈ l :=
  (sortDesc_perm key l).mem_iff

/-- Elements of the insertion result are the inserted one or old ones. -/
theorem mem_insDesc {α : Type} (key : α → ℚ) (a : α) (l : List α) (x : α) :
    x ∈ insDesc key a l ↔ x = a ∨ x ∈ l := by
  rw [(insDesc_perm key a l).mem_iff, List.mem_cons]

/-- Inserting preserves descending sortedness. -/
theorem insDesc_pairwise {α : Type} (key : α → ℚ) (a : α) (l : List α)
    (h : l.Pairwise (fun x y => key y ≤ key x)) :
    (insDesc key a l).Pairwise (fun x y => key y ≤ key x) := by
  induction l with
  | nil => simp [insDesc]
  | cons b t ih =>
    rcases List.pairwise_cons.mp h with ⟨hb, ht⟩
    by_cases hba : key b ≤ key a
    · simp only [insDesc, if_pos hba]
      refine List.pairwise_cons.mpr ⟨?_, h⟩
      intro x hx
      rcases List.mem_cons.mp hx with rfl | hx
      · exact hba
      · exact le_trans (hb x hx) hba
    · simp only [insDesc, if_neg hba]
      refine List.pairwise_cons.mpr ⟨?_, ih ht⟩
      intro x hx
      rcases (mem_insDesc key a t x).mp hx with rfl | hx
      · exact le_of_lt (lt_of_not_le hba)
      · exact hb x hx

/-- The sort output is descending in the key. -/
theorem sortDesc_pairwise {α : Type} (key : α → ℚ) (l : List α) :
    (sortDesc key l).Pairwise (fun x y => key y ≤ key x) := by
  induction l with
  | nil => simp [sortDesc]
  | cons a t ih => exact insDesc_pairwise key a (sortDesc key t) ih

/-- Stability of the insertion step, expressed through filtering on one key
value: inserting `a` puts it in front of the equal-key elements. -/
theorem insDesc_filter_key {α : Type} (key : α → ℚ) (a : α) (l : List α) (q : ℚ) :
    (insDesc key a l).filter (fun x => decide (key x = q)) =
      if key a = q then a :: l.filter (fun x => decide (key x = q))
      else l.filter (fun x => decide (key x = q)) := by
  induction l with
  | nil => by_cases h : key a = q <;> simp [insDesc, List.filter_cons, h]
  | cons b t ih =>
    by_cases hba : key b ≤ key a
    · have h1 : insDesc key a (b :: t) = a :: b :: t := by simp [insDesc, hba]
      by_cases h : key a = q <;> simp [h1, List.filter_cons, h]
    · have h1 : insDesc key a (b :: t) = b :: insDesc key a t := by simp [insDesc, hba]
      have hab : key a < key b := lt_of_not_le hba
      by_cases h : key a = q
      · have hbq : ¬ (key b = q) := by
          intro hb; rw [h] at hab; rw [hb] at hab; exact lt_irrefl q hab
        simp [h1, List.filter_cons, h, hbq, ih]
      · by_cases hbq : key b = q <;>
          simp [h1, List.filter_cons, h, hbq, ih]

/-- Stability of the whole sort: for each key value the equal-key elements
come out in their original relative order. -/
theorem sortDesc_filter_key {α : Type} (key : α → ℚ) (l : List α) (q : ℚ) :
    (sortDesc key l).filter (fun x => decide (key x = q)) =
      l.filter (fun x => decide (key x = q)) := by
  induction l with
  | nil => rfl
  | cons a t ih =>
    have h1 : sortDesc key (a :: t) = insDesc key a (sortDesc key t) := rfl
    rw [h1, insDesc_filter_key]
    by_cases h : key a = q
    · simp [List.filter, h, ih]
    · simp [List.filter, h, ih]

/-! ## Characterisation of the dedup loop and the in-place updates -/

theorem mergeFirst_none_iff (ty c : String) (ev : Option Evid) (now : ℚ)
    (l : List Entry) :
    mergeFirst ty c ev now l = none ↔ ∀ e ∈ l, ¬ simMatch ty c e := by
  induction l with
  | nil => simp [mergeFirst]
  | cons e rest ih =>
    by_cases h : simMatch ty c e
    · simp [mergeFirst, h]
    · simp only [mergeFirst, if_neg h]
      cases hm : mergeFirst ty c ev now rest with
      | none =>
        simp only [hm]
        constructor
        · intro _ x hx
          rcases List.mem_cons.mp hx with rfl | hx
          · exact h
          · exact (ih.mp hm) x hx
        · intro _; trivial
      | some pr =>
        simp only [hm]
        constructor
        · intro hfalse; cases hfalse
        · intro hall
          have : mergeFirst ty c ev now rest = none := by
            rw [ih]; intro x hx; exact hall x (List.mem_cons_of_mem e hx)
          rw [this] at hm; cases hm

theorem mergeFirst_some_set (ty c : String) (ev : Option Evid) (now : ℚ)
    (l l' : List Entry) (m : Entry)
    (h : mergeFirst ty c ev now l = some (l', m)) :
    ∃ i, ∃ hi : i < l.length,
      simMatch ty c l[i] ∧ m = mergeInto ev now l[i] ∧ l' = l.set i m ∧
      ∀ j (hj : j < l.length), j < i → ¬ simMatch ty c l[j] := by
  induction l generalizing l' with
  | nil => simp [mergeFirst] at h
  | cons e rest ih =>
    by_cases he : simMatch ty c e
    · simp only [mergeFirst, if_pos he, Option.some_inj] at h
      refine ⟨0, by simp, ?_⟩
      obtain ⟨h1, h2⟩ := Prod.mk.injEq _ _ _ _ ▸ h
      refine ⟨by simpa using he, by simp [← h2], by simp [← h1, ← h2], ?_⟩
      intro j hj hj0; omega
    · simp only [mergeFirst, if_neg he] at h
      cases hm : mergeFirst ty c ev now rest with
      | none => rw [hm] at h; cases h
      | some pr =>
        rw [hm] at h
        cases h
        obtain ⟨i, hi, hmatch, hme, hset, hfirst⟩ := ih pr.1 (by rw [hm])
        refine ⟨i + 1, by simpa using Nat.succ_lt_succ hi, ?_, ?_, ?_, ?_⟩
        · simpa using hmatch
        · simpa using hme
        · simp [hset]
        · intro j hj hji
          cases j with
          | zero => simpa using he
          | succ j0 =>
            have hj0 : j0 < rest.length := by simpa using hj
            have := hfirst j0 hj0 (by omega)
            simpa using this

theorem updateFirst_eq_of_none (p : Entry → Bool) (f : Entry → Entry)
    (l : List Entry) (h : ∀ e ∈ l, ¬ p e) : updateFirst p f l = l := by
  induction l with
  | nil => rfl
  | cons e rest ih =>
    have he : ¬ p e := h e (List.mem_cons_self e rest)
    simp only [updateFirst, if_neg he]
    rw [ih (fun x hx => h x (List.mem_cons_of_mem e hx))]

theorem find?_updateFirst_set (p : Entry → Bool) (f : Entry → Entry)
    (l : List Entry) (e : Entry) (h : List.find? p l = some e) :
    ∃ i, ∃ hi : i < l.length,
      l[i] = e ∧ p e ∧ (∀ j (hj : j < l.length), j < i → ¬ p l[j]) ∧
      updateFirst p f l = l.set i (f e) := by
  induction l generalizing e with
  | nil => simp at h
  | cons a rest ih =>
    by_cases ha : p a
    · rw [List.find?_cons_of_pos _ ha] at h
      cases h
      exact ⟨0, by simp, by simp, ha, by intro j hj hj0; omega, by simp [updateFirst, ha]⟩
    · rw [List.find?_cons_of_neg _ ha] at h
      obtain ⟨i, hi, hget, hpe, hfirst, hupd⟩ := ih e h
      refine ⟨i + 1, by simpa using Nat.succ_lt_succ hi, by simpa using hget, hpe, ?_, ?_⟩
      · intro j hj hji
        cases j with
        | zero => simpa using ha
        | succ j0 =>
          have hj0 : j0 < rest.length := by simpa using hj
          exact by simpa using hfirst j0 hj0 (by omega)
      · simp [updateFirst, ha, hupd]

theorem find?_none_updateFirst (p : Entry → Bool) (f : Entry → Entry)
    (l : List Entry) (h : List.find? p l = none) : updateFirst p f l = l :=
  updateFirst_eq_of_none p f l (by
    intro e he hpe
    have := List.find?_isSome.mpr ⟨e, he, hpe⟩
    rw [h] at this; cases this)

/-! ## Pointwise form of `feedback` -/

theorem feedback_entries_length (db : Doc) (d : ℤ) (ctx : Option String)
    (ids : Option (List String)) (now : ℚ) :
    (feedback db d ctx ids now).1.entries.length = db.entries.length := by
  simp [feedback, List.enum_length]

theorem feedback_entries_getElem (db : Doc) (d : ℤ) (ctx : Option String)
    (ids : Option (List String)) (now : ℚ) (i : Nat)
    (hi : i < db.entries.length)
    (hi2 : i < (feedback db d ctx ids now).1.entries.length) :
    (feedback db d ctx ids now).1.entries[i] =
      if i ∈ fbTargets db.entries ids then applyFb now d ctx db.entries[i]
      else db.entries[i] := by
  simp [feedback, List.getElem_enum]

/-! ## Claim C10 -/

/-- C10: `meta.total_decisions` increases (by exactly 1) only when `add`
creates a brand-new entry of type `decision`; a dedup-merging `add` and any
`add` that fails validation leave `meta` entirely unchanged, and a creating
`add` changes no meta field other than `total_decisions`, which it bumps
exactly when the type is `decision`. -/
theorem C10_total_decisions_frame (db : Doc) (ty c : String) (conf : ℚ)
    (ev : Option Evid) (src dom : Option String) (tr : Option (List String))
    (lc : Option String) (now : ℚ) (nid : String) :
    ((add db ty c conf ev src dom tr lc now nid).1.entries.length = db.entries.length ∧
      (add db ty c conf ev src dom tr lc now nid).1.meta = db.meta) ∨
    ((add db ty c conf ev src dom tr lc now nid).1.entries.length = db.entries.length + 1 ∧
      (add db ty c conf ev src dom tr lc now nid).1.meta.total_decisions =
        db.meta.total_decisions + (if ty = "decision" then 1 else 0) ∧
      (add db ty c conf ev src dom tr lc now nid).1.meta.total_corrections =
        db.meta.total_corrections ∧
      (add db ty c conf ev src dom tr lc now nid).1.meta.accuracy_by_domain =
        db.meta.accuracy_by_domain) := by
  by_cases h1 : ty ∈ ENTRY_TYPES
  · by_cases h2 : stripL c.data = []
    · left; simp [add, h1, h2]
    · cases hm : mergeFirst ty (procC c) ev now db.entries with
      | none =>
        right
        refine ⟨?_, ?_, ?_, ?_⟩ <;>
          (simp [add, h1, h2, hm]; try (split_ifs <;> simp))
      | some pr =>
        left
        obtain ⟨i, hi, _, _, hset, _⟩ :=
          mergeFirst_some_set _ _ _ _ _ _ _ hm
        constructor
        · simp [add, h1, h2, hm, hset]
        · simp [add, h1, h2, hm]
  · left; simp [add, h1]

/-! ## Claim C4 -/

/-- C4: for unresolved, non-dormant entries, `decay` is a no-op when
`days_old < 0.1` and otherwise recomputes
`strength = max(0.10, confidence * 0.5^(days_old / (7*(1+reinforcements*0.3))))`
from the immutable `confidence` baseline (independently of the previous
strength), moving a curiosity whose new strength is below `0.15` to the
`dormant` lifecycle; resolved and dormant entries are never mutated.
`hp` abstracts `x ↦ 0.5 ** x`. -/
theorem C4_decay_recomputes_strength (hp : ℚ → ℚ) (now : ℚ) (e : Entry) :
    (e.resolved = true ∨ e.lifecycle = some "dormant" → decayEntry hp now e = e) ∧
    (e.resolved = false → e.lifecycle ≠ some "dormant" →
      (now - e.last_touched) / 86400 < 0.1 → decayEntry hp now e = e) ∧
    (e.resolved = false → e.lifecycle ≠ some "dormant" →
      0.1 ≤ (now - e.last_touched) / 86400 →
      ((decayEntry hp now e).strength =
          pyMax 0.1 (e.confidence *
            hp (((now - e.last_touched) / 86400) /
              (7 * (1 + (e.reinforcements : ℚ) * 0.3)))) ∧
        (decayEntry hp now e).confidence = e.confidence ∧
        ((decayEntry hp now e).lifecycle =
          if (decayEntry hp now e).strength < 0.15 ∧ e.type = "curiosity"
          then some "dormant" else e.lifecycle) ∧
        (∀ s : ℚ, (decayEntry hp now { e with strength := s }).strength =
            (decayEntry hp now e).strength))) ∧
    (∀ db : Doc, (decay hp now db).entries = db.entries.map (decayEntry hp now)) := by
  have h01 : MIN_STRENGTH = (0.1 : ℚ) := by norm_num [MIN_STRENGTH]
  have h7 : DECAY_HALF_LIFE_DAYS = (7 : ℚ) := by norm_num [DECAY_HALF_LIFE_DAYS]
  refine ⟨?_, ?_, ?_, fun db => rfl⟩
  · intro h
    rcases h with h | h
    · simp [decayEntry, h]
    · simp [decayEntry, h]
  · intro h1 h2 h3
    have : ¬ (e.resolved = true ∨ e.lifecycle = some "dormant") := by
      rintro (h | h)
      · rw [h1] at h; cases h
      · exact h2 h
    simp only [decayEntry, if_neg this, if_pos h3]
  · intro h1 h2 h3
    have hnc : ¬ (e.resolved = true ∨ e.lifecycle = some "dormant") := by
      rintro (h | h)
      · rw [h1] at h; cases h
      · exact h2 h
    have h3n : ¬ ((now - e.last_touched) / 86400 < 0.1) := not_lt.mpr h3
    refine ⟨?_, ?_, ?_, ?_⟩
    · simp only [decayEntry, if_neg hnc, if_neg h3n, h01, h7]
    · simp only [decayEntry, if_neg hnc, if_neg h3n]
    · simp only [decayEntry, if_neg hnc, if_neg h3n]
    · intro s
      simp only [decayEntry, if_neg hnc, if_neg h3n]

/-- Concrete unresolved, non-dormant curiosity entry, one day old at the
witness time. -/
def wC4 : Entry :=
  { id := "C-w4", type := "curiosity", content := "why does x happen",
    confidence := 0.8, evidence := [], source := none, domain := none,
    trace := [], feedback := [], reinforcements := 1, strength := 0.8,
    created := 0, last_touched := 0, resolved := false, lifecycle := some "active" }

/-- Witness for C4 at a concrete input (constant oracle `0.5`). -/
theorem C4_decay_recomputes_strength_witness :
    (decayEntry (fun _ => (0.5 : ℚ)) 86400 wC4).strength =
      pyMax 0.1 (wC4.confidence * (0.5 : ℚ)) :=
  ((C4_decay_recomputes_strength (fun _ => (0.5 : ℚ)) 86400 wC4).2.2.1
    (by rfl) (by decide) (by norm_num [wC4])).1

/-! ## Claim C3 -/

/-- C3: per `feedback` call, direction `-1` sets each target's strength to
`max(0.05, strength - 0.25)` (no reinforcement change) and bumps
`total_corrections` by exactly 1 regardless of the number of targets;
direction `+1` sets each target's strength to `min(1.0, strength + 0.15)`
and bumps its reinforcements; every target gets a feedback record appended
and `last_touched` refreshed; non-targets are untouched; the return value
is the number of targets. -/
theorem C3_feedback_effect (db : Doc) (ctx : Option String)
    (ids : Option (List String)) (now : ℚ) :
    ((feedback db (-1) ctx ids now).1.meta.total_corrections =
        db.meta.total_corrections + 1 ∧
      (feedback db (-1) ctx ids now).2 = (fbTargets db.entries ids).length ∧
      (feedback db (-1) ctx ids now).1.entries.length = db.entries.length ∧
      ∀ i, ∀ hi : i < db.entries.length,
        ∀ hi2 : i < (feedback db (-1) ctx ids now).1.entries.length,
        (i ∈ fbTargets db.entries ids →
          (feedback db (-1) ctx ids now).1.entries[i] =
            { db.entries[i] with
              strength := pyMax 0.05 (db.entries[i].strength - 0.25),
              feedback := db.entries[i].feedback ++
                [{ time := now, direction := -1, context := ctx }],
              last_touched := now }) ∧
        (i ∉ fbTargets db.entries ids →
          (feedback db (-1) ctx ids now).1.entries[i] = db.entries[i])) ∧
    ((feedback db 1 ctx ids now).1.meta.total_corrections =
        db.meta.total_corrections ∧
      (feedback db 1 ctx ids now).2 = (fbTargets db.entries ids).length ∧
      (feedback db 1 ctx ids now).1.entries.length = db.entries.length ∧
      ∀ i, ∀ hi : i < db.entries.length,
        ∀ hi2 : i < (feedback db 1 ctx ids now).1.entries.length,
        (i ∈ fbTargets db.entries ids →
          (feedback db 1 ctx ids now).1.entries[i] =
            { db.entries[i] with
              strength := pyMin 1.0 (db.entries[i].strength + 0.15),
              reinforcements := db.entries[i].reinforcements + 1,
              feedback := db.entries[i].feedback ++
                [{ time := now, direction := 1, context := ctx }],
              last_touched := now }) ∧
        (i ∉ fbTargets db.entries ids →
          (feedback db 1 ctx ids now).1.entries[i] = db.entries[i])) := by
  constructor
  · refine ⟨by simp [feedback], by simp [feedback], feedback_entries_length db (-1) ctx ids now, ?_⟩
    intro i hi hi2
    constructor
    · intro hmem
      rw [feedback_entries_getElem db (-1) ctx ids now i hi hi2, if_pos hmem]
      simp [applyFb]
    · intro hmem
      rw [feedback_entries_getElem db (-1) ctx ids now i hi hi2, if_neg hmem]
  · refine ⟨by simp [feedback], by simp [feedback], feedback_entries_length db 1 ctx ids now, ?_⟩
    intro i hi hi2
    constructor
    · intro hmem
      rw [feedback_entries_getElem db 1 ctx ids now i hi hi2, if_pos hmem]
      simp [applyFb]
    · intro hmem
      rw [feedback_entries_getElem db 1 ctx ids now i hi hi2, if_neg hmem]

/-! ## Claim C9 — helper lemmas on target selection -/

/-- `applyFb` always changes the entry (it appends a feedback record). -/
theorem applyFb_ne (now : ℚ) (d : ℤ) (ctx : Option String) (e : Entry) :
    applyFb now d ctx e ≠ e := by
  intro h
  have hfb : (applyFb now d ctx e).feedback = e.feedback := congrArg Entry.feedback h
  have hlen : (applyFb now d ctx e).feedback.length = e.feedback.length + 1 := by
    by_cases hd : d > 0 <;> simp [applyFb, hd]
  rw [hfb] at hlen
  omega

/-- Members of the default target list are indices of unresolved entries. -/
theorem mem_defaultTargets (entries : List Entry) (i : Nat)
    (h : i ∈ defaultTargets entries) :
    ∃ e, entries[i]? = some e ∧ e.resolved = false ∧
      (i, e) ∈ (sortDesc (fun p => p.2.last_touched)
        (entries.enum.filter (fun p => p.2.resolved = false))).take 5 := by
  rcases List.mem_map.mp h with ⟨p, hp, hfst⟩
  have hsorted : p ∈ sortDesc (fun p => p.2.last_touched)
      (entries.enum.filter (fun p => p.2.resolved = false)) :=
    (List.take_sublist 5 _).mem hp
  have hfilter := (mem_sortDesc _ _ p).mp hsorted
  have henum : p ∈ entries.enum := List.mem_of_mem_filter hfilter
  have hres : p.2.resolved = false := by
    have := List.of_mem_filter hfilter
    simpa using this
  refine ⟨p.2, ?_, hres, ?_⟩
  · rw [← hfst]
    exact List.mem_enum_iff_getElem?.mp henum
  · rw [← hfst]
    exact (Prod.mk.eta (p := p)) ▸ hp

theorem mem_fbTargets_explicit (entries : List Entry) (l : List String)
    (hl : ¬ l = []) (i : Nat) :
    i ∈ fbTargets entries (some l) ↔ ∃ e, entries[i]? = some e ∧ e.id ∈ l := by
  simp only [fbTargets, if_neg hl]
  constructor
  · intro h
    rcases List.mem_map.mp h with ⟨p, hp, hfst⟩
    have henum : p ∈ entries.enum := List.mem_of_mem_filter hp
    have hid : p.2.id ∈ l := by
      have := List.of_mem_filter hp
      simpa using this
    exact ⟨p.2, hfst ▸ List.mem_enum_iff_getElem?.mp henum, hid⟩
  · rintro ⟨e, he, hid⟩
    refine List.mem_map.mpr ⟨(i, e), ?_, rfl⟩
    refine List.mem_filter.mpr ⟨List.mem_enum_iff_getElem?.mpr he, by simpa using hid⟩

/-- Counting a predicate on the entry component through `enumFrom`. -/
theorem enumFrom_filter_snd_length (q : Entry → Bool) (l : List Entry) :
    ∀ n, ((List.enumFrom n l).filter (fun p => q p.2)).length = (l.filter q).length := by
  induction l with
  | nil => intro n; rfl
  | cons a t ih =>
    intro n
    by_cases hq : q a <;> simp [List.filter_cons, hq, ih]

/-- C9: with a non-empty explicit id list, `feedback` targets exactly the
entries whose id is in the list (unknown ids ignored, resolved entries not
exempt), and an entry is mutated iff its id is listed; with no ids, the
targets are at most five, all unresolved (with exact count
`min 5 #unresolved`), most-recent-first by `last_touched`, and every
non-targeted unresolved entry is no more recent than any target; in both
modes an entry is mutated iff it is targeted. -/
theorem C9_feedback_target_selection (db : Doc) :
    (∀ l : List String, ¬ l = [] →
      (∀ i, ∀ hi : i < db.entries.length,
        (i ∈ fbTargets db.entries (some l) ↔ db.entries[i].id ∈ l))) ∧
    ((fbTargets db.entries none).length ≤ 5 ∧
      (fbTargets db.entries none).length =
        min 5 (db.entries.filter (fun e => e.resolved = false)).length ∧
      (∀ i, ∀ hi : i < db.entries.length,
        i ∈ fbTargets db.entries none → db.entries[i].resolved = false) ∧
      (∀ i j, ∀ hi : i < db.entries.length, ∀ hj : j < db.entries.length,
        i ∈ fbTargets db.entries none → j ∉ fbTargets db.entries none →
        db.entries[j].resolved = false →
        db.entries[j].last_touched ≤ db.entries[i].last_touched) ∧
      (fbTargets db.entries none).Pairwise (fun i j => ∀ a b : Entry,
        db.entries[i]? = some a → db.entries[j]? = some b →
        b.last_touched ≤ a.last_touched)) ∧
    (∀ ids d ctx now i, ∀ hi : i < db.entries.length,
      ∀ hi2 : i < (feedback db d ctx ids now).1.entries.length,
      ((feedback db d ctx ids now).1.entries[i] = db.entries[i] ↔
        i ∉ fbTargets db.entries ids)) := by
  refine ⟨?_, ⟨?_, ?_, ?_, ?_, ?_⟩, ?_⟩
  · intro l hl i hi
    rw [mem_fbTargets_explicit db.entries l hl i]
    constructor
    · rintro ⟨e, he, hid⟩
      obtain ⟨h, hg⟩ := List.getElem?_eq_some.mp he
      rw [← hg] at hid; exact hid
    · intro hid
      exact ⟨db.entries[i], List.getElem?_eq_getElem hi, hid⟩
  · simp only [fbTargets, defaultTargets, List.length_map]
    exact le_trans (List.length_take_le 5 _) (le_refl _)
  · simp only [fbTargets, defaultTargets, List.length_map, List.length_take,
      sortDesc_length, List.enum]
    rw [enumFrom_filter_snd_length (fun e => decide (e.resolved = false)) db.entries 0]
  · intro i hi h
    obtain ⟨e, he, hres, _⟩ := mem_defaultTargets db.entries i h
    obtain ⟨h2, hg⟩ := List.getElem?_eq_some.mp he
    rw [hg]; exact hres
  · intro i j hi hj hit hjn hjres
    obtain ⟨a, ha, hares, hatake⟩ := mem_defaultTargets db.entries i hit
    have hjenum : (j, db.entries[j]) ∈ db.entries.enum :=
      List.mem_enum_iff_getElem?.mpr (List.getElem?_eq_getElem hj)
    have hjfil : (j, db.entries[j]) ∈
        db.entries.enum.filter (fun p => p.2.resolved = false) :=
      List.mem_filter.mpr ⟨hjenum, by simpa using hjres⟩
    set S := sortDesc (fun p => p.2.last_touched)
      (db.entries.enum.filter (fun p => p.2.resolved = false)) with hS
    have hjsorted : (j, db.entries[j]) ∈ S := (mem_sortDesc _ _ _).mpr hjfil
    have hsplit : (j, db.entries[j]) ∈ S.take 5 ∨ (j, db.entries[j]) ∈ S.drop 5 := by
      rw [← List.take_append_drop 5 S] at hjsorted
      exact List.mem_append.mp hjsorted
    rcases hsplit with htk | hdr
    · exact absurd (List.mem_map.mpr ⟨(j, db.entries[j]), htk, rfl⟩) hjn
    · have hpw := sortDesc_pairwise (fun p => p.2.last_touched)
        (db.entries.enum.filter (fun p => p.2.resolved = false))
      rw [← hS, ← List.take_append_drop 5 S] at hpw
      have h3 := (List.pairwise_append.mp hpw).2.2
      have := h3 (i, a) hatake (j, db.entries[j]) hdr
      have hai : a = db.entries[i] := by
        obtain ⟨h2, hg⟩ := List.getElem?_eq_some.mp ha
        rw [hg]
      rw [← hai]
      exact this
  · have hpw := sortDesc_pairwise (fun p => p.2.last_touched)
      (db.entries.enum.filter (fun p => p.2.resolved = false))
    have htake := hpw.sublist (List.take_sublist 5 _)
    simp only [fbTargets, defaultTargets]
    rw [List.pairwise_map]
    refine htake.imp_of_mem ?_
    intro p q hp hq hrel a b hpa hqb
    have hpe : p ∈ db.entries.enum :=
      List.mem_of_mem_filter ((mem_sortDesc _ _ _).mp ((List.take_sublist 5 _).mem hp))
    have hqe : q ∈ db.entries.enum :=
      List.mem_of_mem_filter ((mem_sortDesc _ _ _).mp ((List.take_sublist 5 _).mem hq))
    have hpa2 : db.entries[p.1]? = some p.2 := List.mem_enum_iff_getElem?.mp hpe
    have hqb2 : db.entries[q.1]? = some q.2 := List.mem_enum_iff_getElem?.mp hqe
    rw [hpa2] at hpa; rw [hqb2] at hqb
    cases hpa; cases hqb
    exact hrel
  · intro ids d ctx now i hi hi2
    rw [feedback_entries_getElem db d ctx ids now i hi hi2]
    constructor
    · intro h hmem
      rw [if_pos hmem] at h
      exact applyFb_ne now d ctx db.entries[i] h
    · intro hmem
      rw [if_neg hmem]

/-- Concrete two-entry document used by the C9 witness. -/
def wC9db : Doc :=
  { defaultDb with entries :=
      [{ id := "A", type := "perception", content := "alpha", confidence := 0.5,
         evidence := [], source := none, domain := none, trace := [], feedback := [],
         reinforcements := 1, strength := 0.5, created := 0, last_touched := 10,
         resolved := false, lifecycle := none },
       { id := "B", type := "perception", content := "beta", confidence := 0.5,
         evidence := [], source := none, domain := none, trace := [], feedback := [],
         reinforcements := 1, strength := 0.5, created := 0, last_touched := 5,
         resolved := true, lifecycle := none }] }

/-- Witness for C9 at a concrete input. -/
theorem C9_feedback_target_selection_witness :
    0 ∈ fbTargets wC9db.entries (some ["A"]) ↔ wC9db.entries[0].id ∈ ["A"] :=
  (C9_feedback_target_selection wC9db).1 ["A"] (by decide) 0 (by decide)

/-! ## Claim C7 -/

/-- Everything `get_active` guarantees about its output: budget respected,
only unresolved entries above the strength floor and of the requested type,
ranked descending by `strength * reinforcements`, with ties kept in
original document order (the equal-key subsequence of the output is a
subsequence of the equal-key subsequence of the document). -/
theorem get_active_spec (d : Doc) (oty : Option String) (limit : Nat) (ms : ℚ) :
    (get_active d oty limit ms).length ≤ limit ∧
    (∀ e ∈ get_active d oty limit ms,
      e.resolved = false ∧ ms ≤ e.strength ∧ e ∈ d.entries ∧
      ∀ t, oty = some t → e.type = t) ∧
    (get_active d oty limit ms).Pairwise (fun a b =>
      b.strength * (b.reinforcements : ℚ) ≤ a.strength * (a.reinforcements : ℚ)) ∧
    (∀ q : ℚ, List.Sublist
      ((get_active d oty limit ms).filter
        (fun e => decide (e.strength * (e.reinforcements : ℚ) = q)))
      (d.entries.filter
        (fun e => decide (e.strength * (e.reinforcements : ℚ) = q)))) := by
  refine ⟨List.length_take_le limit _, ?_, ?_, ?_⟩
  · intro e he
    have hsorted : e ∈ sortDesc (fun e => e.strength * (e.reinforcements : ℚ))
        (d.entries.filter (fun e =>
          decide (e.resolved = false ∧ ms ≤ e.strength ∧
            (oty = none ∨ oty = some e.type)))) :=
      (List.take_sublist limit _).mem he
    have hfil := (mem_sortDesc _ _ _).mp hsorted
    have hmem : e ∈ d.entries := List.mem_of_mem_filter hfil
    have hpred := List.of_mem_filter hfil
    rw [decide_eq_true_eq] at hpred
    obtain ⟨h1, h2, h3⟩ := hpred
    refine ⟨h1, h2, hmem, ?_⟩
    intro t ht
    rcases h3 with h3 | h3
    · rw [ht] at h3; cases h3
    · rw [ht] at h3
      exact (Option.some_inj.mp h3).symm
  · exact (sortDesc_pairwise _ _).sublist (List.take_sublist limit _)
  · intro q
    have h1 : List.Sublist
        ((get_active d oty limit ms).filter
          (fun e => decide (e.strength * (e.reinforcements : ℚ) = q)))
        ((sortDesc (fun e => e.strength * (e.reinforcements : ℚ))
          (d.entries.filter (fun e =>
            decide (e.resolved = false ∧ ms ≤ e.strength ∧
              (oty = none ∨ oty = some e.type))))).filter
          (fun e => decide (e.strength * (e.reinforcements : ℚ) = q))) :=
      (List.take_sublist limit _).filter _
    rw [sortDesc_filter_key] at h1
    exact h1.trans ((List.filter_sublist _).filter _)

/-- C7: `compile_lens` first decays, then per type surfaces at most the
budgeted number of entries (perception 5, override 5, protection 4,
self_obs 3, curiosity 3), never a resolved entry, never one with strength
below `0.15`, each of the requested type (hence never a decision — budget
0), ranked descending by `strength * reinforcements`, ties in original
order. -/
theorem C7_compile_lens_selection (hp : ℚ → ℚ) (now : ℚ) (db : Doc) :
    ((compile_lens hp now db).1 = decay hp now db ∧
      (compile_lens hp now db).2.perceptions =
        get_active (decay hp now db) (some "perception") 5 0.15 ∧
      (compile_lens hp now db).2.overrides =
        get_active (decay hp now db) (some "override") 5 0.15 ∧
      (compile_lens hp now db).2.protections =
        get_active (decay hp now db) (some "protection") 4 0.15 ∧
      (compile_lens hp now db).2.self_obs =
        get_active (decay hp now db) (some "self_obs") 3 0.15 ∧
      (compile_lens hp now db).2.curiosities =
        get_active (decay hp now db) (some "curiosity") 3 0.15) ∧
    LIMITS "decision" = 0 ∧
    (∀ sel ∈ [((compile_lens hp now db).2.perceptions, "perception", 5),
              ((compile_lens hp now db).2.overrides, "override", 5),
              ((compile_lens hp now db).2.protections, "protection", 4),
              ((compile_lens hp now db).2.self_obs, "self_obs", 3),
              ((compile_lens hp now db).2.curiosities, "curiosity", 3)],
      sel.1.length ≤ sel.2.2 ∧
      (∀ e ∈ sel.1, e.resolved = false ∧ (0.15 : ℚ) ≤ e.strength ∧
        e ∈ (decay hp now db).entries ∧ e.type = sel.2.1 ∧ ¬ e.type = "decision") ∧
      sel.1.Pairwise (fun a b =>
        b.strength * (b.reinforcements : ℚ) ≤ a.strength * (a.reinforcements : ℚ)) ∧
      (∀ q : ℚ, List.Sublist
        (sel.1.filter (fun e => decide (e.strength * (e.reinforcements : ℚ) = q)))
        ((decay hp now db).entries.filter
          (fun e => decide (e.strength * (e.reinforcements : ℚ) = q))))) := by
  refine ⟨⟨rfl, rfl, rfl, rfl, rfl, rfl⟩, rfl, ?_⟩
  intro sel hsel
  have key : ∀ (ty : String) (lim : Nat), ¬ ty = "decision" →
      (get_active (decay hp now db) (some ty) lim 0.15).length ≤ lim ∧
      (∀ e ∈ get_active (decay hp now db) (some ty) lim 0.15,
        e.resolved = false ∧ (0.15 : ℚ) ≤ e.strength ∧
        e ∈ (decay hp now db).entries ∧ e.type = ty ∧ ¬ e.type = "decision") ∧
      (get_active (decay hp now db) (some ty) lim 0.15).Pairwise (fun a b =>
        b.strength * (b.reinforcements : ℚ) ≤ a.strength * (a.reinforcements : ℚ)) ∧
      (∀ q : ℚ, List.Sublist
        ((get_active (decay hp now db) (some ty) lim 0.15).filter
          (fun e => decide (e.strength * (e.reinforcements : ℚ) = q)))
        ((decay hp now db).entries.filter
          (fun e => decide (e.strength * (e.reinforcements : ℚ) = q)))) := by
    intro ty lim hty
    obtain ⟨hlen, hmem, hpw, hst⟩ := get_active_spec (decay hp now db) (some ty) lim 0.15
    refine ⟨hlen, ?_, hpw, hst⟩
    intro e he
    obtain ⟨h1, h2, h3, h4⟩ := hmem e he
    have hety : e.type = ty := h4 ty rfl
    exact ⟨h1, h2, h3, hety, by rw [hety]; exact hty⟩
  simp only [List.mem_cons, List.not_mem_nil, or_false] at hsel
  rcases hsel with rfl | rfl | rfl | rfl | rfl
  · exact key "perception" 5 (by decide)
  · exact key "override" 5 (by decide)
  · exact key "protection" 4 (by decide)
  · exact key "self_obs" 3 (by decide)
  · exact key "curiosity" 3 (by decide)

/-- Concrete entry used by the C3 witness. -/
def wC3e : Entry :=
  { id := "A", type := "override", content := "never do x", confidence := 0.9,
    evidence := [], source := none, domain := some "ops", trace := [], feedback := [],
    reinforcements := 2, strength := 0.9, created := 0, last_touched := 3,
    resolved := false, lifecycle := none }

def wC3db : Doc := { defaultDb with entries := [wC3e] }

/-- Witness for C3 at a concrete input: one negative-feedback call targeting
the single entry by id. -/
theorem C3_feedback_effect_witness :
    (feedback wC3db (-1) none (some ["A"]) 7).1.entries[0]? =
      some { wC3e with
        strength := pyMax 0.05 (wC3e.strength - 0.25),
        feedback := wC3e.feedback ++ [{ time := 7, direction := -1, context := none }],
        last_touched := 7 } := by
  have hb : 0 < (feedback wC3db (-1) none (some ["A"]) 7).1.entries.length := by
    rw [feedback_entries_length]; decide
  rw [List.getElem?_eq_getElem hb]
  exact congrArg some
    (((C3_feedback_effect wC3db none (some ["A"]) 7).1.2.2.2 0 (by decide) hb).1 (by decide))

/-- Concrete entry and document used by the C7 witness. -/
def wC7e : Entry :=
  { id := "P-1", type := "perception", content := "sees patterns", confidence := 0.5,
    evidence := [], source := none, domain := none, trace := [], feedback := [],
    reinforcements := 1, strength := 0.5, created := 0, last_touched := 0,
    resolved := false, lifecycle := none }

def wC7db : Doc := { defaultDb with entries := [wC7e] }

/-- Witness for C7 at a concrete input: the selected perception entry is
unresolved and above the strength floor. -/
theorem C7_compile_lens_selection_witness :
    wC7e.resolved = false ∧ (0.15 : ℚ) ≤ wC7e.strength := by
  have h := ((C7_compile_lens_selection (fun _ => 1) 0 wC7db).2.2
    ((compile_lens (fun _ => 1) 0 wC7db).2.perceptions, "perception", 5)
    (List.mem_cons_self _ _)).2.1 wC7e
    (of_decide_eq_true (by with_unfolding_all rfl))
  exact ⟨h.1, h.2.1⟩

/-! ## Claim C2 -/

theorem mergeFirst_append (ty c : String) (ev : Option Evid) (now : ℚ)
    (pre post : List Entry) (e0 : Entry)
    (hpre : ∀ e ∈ pre, ¬ simMatch ty c e) (h0 : simMatch ty c e0) :
    mergeFirst ty c ev now (pre ++ e0 :: post) =
      some (pre ++ mergeInto ev now e0 :: post, mergeInto ev now e0) := by
  induction pre with
  | nil => simp [mergeFirst, h0]
  | cons a t ih =>
    have ha : ¬ simMatch ty c a := hpre a (List.mem_cons_self a t)
    have ih2 := ih (fun e he => hpre e (List.mem_cons_of_mem a he))
    simp [mergeFirst, ha, ih2]

/-- A merge changes none of the fields that the dedup condition reads. -/
theorem mergeInto_keeps (ev : Option Evid) (now : ℚ) (e : Entry) :
    (mergeInto ev now e).id = e.id ∧ (mergeInto ev now e).type = e.type ∧
    (mergeInto ev now e).content = e.content ∧
    (mergeInto ev now e).confidence = e.confidence ∧
    (mergeInto ev now e).resolved = e.resolved ∧
    (mergeInto ev now e).lifecycle = e.lifecycle ∧
    (mergeInto ev now e).reinforcements = e.reinforcements + 1 ∧
    (mergeInto ev now e).strength = pyMin 1.0 (e.strength + 0.1) ∧
    (mergeInto ev now e).last_touched = now ∧
    (mergeInto ev now e).evidence = condAppendEvid ev e.evidence := by
  refine ⟨rfl, rfl, rfl, rfl, rfl, rfl, rfl, rfl, rfl, rfl⟩

theorem simMatch_congr (ty c : String) (e e' : Entry)
    (hty : e'.type = e.type) (hct : e'.content = e.content)
    (hrs : e'.resolved = e.resolved) :
    simMatch ty c e' ↔ simMatch ty c e := by
  unfold simMatch
  rw [hty, hct, hrs]

/-- One fully validated, merging `add` call: the document keeps the same
entry list except that the first matching entry is replaced by its merge,
and that merged entry is returned. -/
theorem add_merges (db : Doc) (ty content : String) (conf : ℚ)
    (ev : Option Evid) (src dom : Option String) (tr : Option (List String))
    (lc : Option String) (now : ℚ) (nid : String)
    (pre post : List Entry) (e0 : Entry)
    (hdb : db.entries = pre ++ e0 :: post)
    (hty : ty ∈ ENTRY_TYPES) (hnz : ¬ stripL content.data = [])
    (hpre : ∀ e ∈ pre, ¬ simMatch ty (procC content) e)
    (h0 : simMatch ty (procC content) e0) :
    add db ty content conf ev src dom tr lc now nid =
      ({ db with entries := pre ++ mergeInto ev now e0 :: post },
        some (mergeInto ev now e0)) := by
  simp [add, hty, hnz, hdb, mergeFirst_append ty (procC content) ev now pre post e0 hpre h0]

/-- The arguments of one `add` invocation, apart from the type. -/
structure AddCall where
  content : String
  confidence : ℚ
  evidence : Option Evid
  source : Option String
  domain : Option String
  trace : Option (List String)
  lifecycle : Option String
  now : ℚ
  newId : String

/-- Run a sequence of `add` calls of one entry type. -/
def runAdds (ty : String) (db : Doc) (cs : List AddCall) : Doc :=
  cs.foldl (fun d c =>
    (add d ty c.content c.confidence c.evidence c.source c.domain c.trace
      c.lifecycle c.now c.newId).1) db

/-- The entry obtained by folding the dedup merges of a call sequence. -/
def iterMerge (e0 : Entry) (cs : List AddCall) : Entry :=
  cs.foldl (fun e c => mergeInto c.evidence c.now e) e0

theorem pyMin_one_add_step (s k : ℚ) (hk : 0 ≤ k) :
    pyMin 1.0 (pyMin 1.0 (s + 0.1) + k) = pyMin 1.0 (s + (0.1 + k)) := by
  rw [pyMin, pyMin, pyMin]
  split_ifs <;> linarith

/-- C2 (amended): starting from a document whose entry list is
`pre ++ e0 :: post`, where no entry of `pre` matches any of the contents
and `e0` (unresolved, of the requested type) matches them all, every further
`add` merges into `e0`'s slot: no new entry is ever created, the id (and
type, content, confidence) never changes, `reinforcements` grows by exactly
one per call — so after `N` further calls it is `e0.reinforcements + N`,
not `N` — strength follows `min(1.0, s + 0.1)` per call, i.e. after `N`
calls `min(1.0, e0.strength + N*0.1)`, monotonically non-decreasing and
capped at 1.0, each call refreshes `last_touched` to its `now` and appends
its evidence only when truthy and not already present. -/
theorem C2_dedup_reinforcement (db : Doc) (ty : String) (cs : List AddCall)
    (pre post : List Entry) (e0 : Entry)
    (hdb : db.entries = pre ++ e0 :: post)
    (hty : ty ∈ ENTRY_TYPES)
    (hnz : ∀ c ∈ cs, ¬ stripL c.content.data = [])
    (hpre : ∀ c ∈ cs, ∀ e ∈ pre, ¬ simMatch ty (procC c.content) e)
    (h0 : ∀ c ∈ cs, simMatch ty (procC c.content) e0)
    (hs1 : e0.strength ≤ 1) :
    (runAdds ty db cs).entries = pre ++ iterMerge e0 cs :: post ∧
    (runAdds ty db cs).entries.length = db.entries.length ∧
    (iterMerge e0 cs).id = e0.id ∧
    (iterMerge e0 cs).type = e0.type ∧
    (iterMerge e0 cs).content = e0.content ∧
    (iterMerge e0 cs).confidence = e0.confidence ∧
    (iterMerge e0 cs).reinforcements = e0.reinforcements + cs.length ∧
    (iterMerge e0 cs).strength = pyMin 1.0 (e0.strength + (cs.length : ℚ) * 0.1) ∧
    e0.strength ≤ (iterMerge e0 cs).strength ∧
    (iterMerge e0 cs).strength ≤ 1 ∧
    (∀ c, ∀ v : Evid, v.truthy → v ∉ e0.evidence →
      (mergeInto (some v) c e0).evidence = e0.evidence ++ [v]) ∧
    (∀ c, ∀ v : Evid, v ∈ e0.evidence →
      (mergeInto (some v) c e0).evidence = e0.evidence) := by
  have main : (runAdds ty db cs).entries = pre ++ iterMerge e0 cs :: post ∧
      (iterMerge e0 cs).id = e0.id ∧
      (iterMerge e0 cs).type = e0.type ∧
      (iterMerge e0 cs).content = e0.content ∧
      (iterMerge e0 cs).confidence = e0.confidence ∧
      (iterMerge e0 cs).resolved = e0.resolved ∧
      (iterMerge e0 cs).reinforcements = e0.reinforcements + cs.length ∧
      (iterMerge e0 cs).strength = pyMin 1.0 (e0.strength + (cs.length : ℚ) * 0.1) := by
    induction cs generalizing db e0 with
    | nil =>
      refine ⟨by simpa [runAdds, iterMerge] using hdb, rfl, rfl, rfl, rfl, rfl,
        by simp [iterMerge], ?_⟩
      show e0.strength = pyMin 1.0 (e0.strength + (([] : List AddCall).length : ℚ) * 0.1)
      have hz : e0.strength + (([] : List AddCall).length : ℚ) * 0.1 = e0.strength := by
        simp
      rw [hz, pyMin, show (1.0 : ℚ) = 1 from by norm_num]
      split_ifs with h
      · linarith
      · rfl
    | cons c cs2 ih =>
      have hc := h0 c (List.mem_cons_self c cs2)
      have hstep := add_merges db ty c.content c.confidence c.evidence c.source
        c.domain c.trace c.lifecycle c.now c.newId pre post e0 hdb hty
        (hnz c (List.mem_cons_self c cs2))
        (hpre c (List.mem_cons_self c cs2)) hc
      set e1 := mergeInto c.evidence c.now e0 with he1
      have hrun : runAdds ty db (c :: cs2) =
          runAdds ty { db with entries := pre ++ e1 :: post } cs2 := by
        simp only [runAdds, List.foldl_cons]
        rw [hstep]
      have hkeep := mergeInto_keeps c.evidence c.now e0
      have hs1b : e1.strength ≤ 1 := by
        rw [hkeep.2.2.2.2.2.2.2.1, pyMin]
        split_ifs with h
        · linarith
        · linarith
      have ihh := ih { db with entries := pre ++ e1 :: post } e1 rfl
        (fun c2 hc2 => hnz c2 (List.mem_cons_of_mem c hc2))
        (fun c2 hc2 e he => hpre c2 (List.mem_cons_of_mem c hc2) e he)
        (fun c2 hc2 => (simMatch_congr ty (procC c2.content) e0 e1
          hkeep.2.1 hkeep.2.2.1 hkeep.2.2.2.2.1).mpr (h0 c2 (List.mem_cons_of_mem c hc2)))
        hs1b
      have hiter : iterMerge e0 (c :: cs2) = iterMerge e1 cs2 := rfl
      refine ⟨?_, ?_, ?_, ?_, ?_, ?_, ?_, ?_⟩
      · rw [hrun, hiter]; exact ihh.1
      · rw [hiter, ihh.2.1, hkeep.1]
      · rw [hiter, ihh.2.2.1, hkeep.2.1]
      · rw [hiter, ihh.2.2.2.1, hkeep.2.2.1]
      · rw [hiter, ihh.2.2.2.2.1, hkeep.2.2.2.1]
      · rw [hiter, ihh.2.2.2.2.2.1, hkeep.2.2.2.2.1]
      · rw [hiter, ihh.2.2.2.2.2.2.1, hkeep.2.2.2.2.2.2.1]
        simp only [List.length_cons]
        omega
      · rw [hiter, ihh.2.2.2.2.2.2.2, hkeep.2.2.2.2.2.2.2.1]
        have hstepq := pyMin_one_add_step e0.strength ((cs2.length : ℚ) * 0.1)
          (by positivity)
        rw [hstepq]
        congr 1
        simp only [List.length_cons]
        push_cast
        ring
  have hlen : (runAdds ty db cs).entries.length = db.entries.length := by
    rw [main.1, hdb]
    simp
  have hsform := main.2.2.2.2.2.2.2
  have hsle : e0.strength ≤ (iterMerge e0 cs).strength := by
    rw [hsform, pyMin, show (1.0 : ℚ) = 1 from by norm_num]
    have h01 : (0 : ℚ) ≤ (cs.length : ℚ) * 0.1 := by positivity
    split_ifs with h
    · linarith
    · linarith
  have hsle1 : (iterMerge e0 cs).strength ≤ 1 := by
    rw [hsform, pyMin, show (1.0 : ℚ) = 1 from by norm_num]
    split_ifs with h
    · exact le_refl 1
    · linarith
  refine ⟨main.1, hlen, main.2.1, main.2.2.1, main.2.2.2.1, main.2.2.2.2.1,
    main.2.2.2.2.2.2.1, hsform, hsle, hsle1, ?_, ?_⟩
  · intro c v hv hnm
    simp [mergeInto, condAppendEvid, hv, hnm]
  · intro c v hm
    simp [mergeInto, condAppendEvid, hm]

/-- Two identical `add` calls on an empty document: the first creates the
entry (reinforcements 1), the second merges (reinforcements 2). -/
def wC2db1 : Doc :=
  (add defaultDb "perception" "alpha beta" 0.6 none none none none none 0 "P-1").1

def wC2db2 : Doc :=
  (add wC2db1 "perception" "alpha beta" 0.6 none none none none none 1 "P-2").1

/-- C2 counterexample: after the creating `add` plus `N = 1` further `add`
of overlapping content there is exactly one entry, but its
`reinforcements` is `2`, not `N = 1` as the claim states. -/
theorem C2_counterexample :
    wC2db2.entries.length = 1 ∧
    wC2db2.entries[0]?.map Entry.reinforcements = some 2 ∧
    ¬ (wC2db2.entries[0]?.map Entry.reinforcements = some 1) :=
  of_decide_eq_true (by with_unfolding_all rfl)

/-- Concrete matching entry, call and document for the C2 witness. -/
def wC2e : Entry :=
  { id := "P-0", type := "perception", content := "alpha beta", confidence := 0.6,
    evidence := [], source := none, domain := none, trace := [], feedback := [],
    reinforcements := 1, strength := 0.6, created := 0, last_touched := 0,
    resolved := false, lifecycle := none }

def wC2call : AddCall :=
  { content := "alpha beta gamma", confidence := 0.6, evidence := none,
    source := none, domain := none, trace := none, lifecycle := none,
    now := 5, newId := "P-9" }

def wC2db : Doc := { defaultDb with entries := [wC2e] }

/-- Witness for the amended C2 at a concrete input: one further overlapping
`add` leaves one entry and bumps `reinforcements` by exactly one. -/
theorem C2_dedup_reinforcement_witness :
    (iterMerge wC2e [wC2call]).reinforcements = wC2e.reinforcements + 1 ∧
    (runAdds "perception" wC2db [wC2call]).entries.length = wC2db.entries.length := by
  have h := C2_dedup_reinforcement wC2db "perception" [wC2call] [] [] wC2e rfl
    (by decide)
    (by decide)
    (by simp)
    (by
      intro c hc
      rw [List.mem_singleton] at hc
      subst hc
      exact of_decide_eq_true (by with_unfolding_all rfl))
    (of_decide_eq_true (by with_unfolding_all rfl))
  exact ⟨h.2.2.2.2.2.2.1, h.2.1⟩

/-! ## Claim C1 -/

/-- The document well-formedness the engine maintains: every entry's
confidence and strength lie in `[0, 1]`. -/
def WFDoc (db : Doc) : Prop :=
  ∀ e ∈ db.entries, (0 ≤ e.confidence ∧ e.confidence ≤ 1) ∧
    (0 ≤ e.strength ∧ e.strength ≤ 1)

/-- One engine step of the kind claim C1 quantifies over: an `add`, a
`feedback` or a `decay` with arbitrary arguments. -/
inductive StepAFD (hp : ℚ → ℚ) : Doc → Doc → Prop
  | add_step : ∀ db ty c conf ev src dom tr lc now nid,
      StepAFD hp db (add db ty c conf ev src dom tr lc now nid).1
  | feedback_step : ∀ db d ctx ids now,
      StepAFD hp db (feedback db d ctx ids now).1
  | decay_step : ∀ db now, StepAFD hp db (decay hp now db)

theorem applyFb_strength_bounds (now : ℚ) (d : ℤ) (ctx : Option String)
    (e : Entry) (h0 : 0 ≤ e.strength) (h1 : e.strength ≤ 1) :
    0.05 ≤ (applyFb now d ctx e).strength ∧ (applyFb now d ctx e).strength ≤ 1 := by
  by_cases hd : d > 0
  · simp only [applyFb, if_pos hd]
    rw [pyMin]
    constructor <;> (split_ifs with h <;> norm_num <;> linarith)
  · simp only [applyFb, if_neg hd]
    rw [pyMax]
    constructor <;> (split_ifs with h <;> norm_num <;> linarith)

theorem applyFb_confidence (now : ℚ) (d : ℤ) (ctx : Option String) (e : Entry) :
    (applyFb now d ctx e).confidence = e.confidence := by
  by_cases hd : d > 0 <;> simp [applyFb, hd]

theorem mergeInto_strength_bounds (ev : Option Evid) (now : ℚ) (e : Entry)
    (h0 : 0 ≤ e.strength) :
    0.05 ≤ (mergeInto ev now e).strength ∧ (mergeInto ev now e).strength ≤ 1 := by
  simp only [mergeInto]
  rw [pyMin]
  constructor <;> (split_ifs with h <;> norm_num <;> linarith)

theorem decayEntry_confidence (hp : ℚ → ℚ) (now : ℚ) (e : Entry) :
    (decayEntry hp now e).confidence = e.confidence := by
  simp only [decayEntry]
  split_ifs <;> rfl

/-- The strength a non-skipped decay step assigns. -/
theorem decayEntry_strength_eq (hp : ℚ → ℚ) (now : ℚ) (e : Entry)
    (hnc : ¬ (e.resolved = true ∨ e.lifecycle = some "dormant"))
    (hdn : ¬ ((now - e.last_touched) / 86400 < 0.1)) :
    (decayEntry hp now e).strength =
      pyMax MIN_STRENGTH (e.confidence *
        hp (((now - e.last_touched) / 86400) /
          (DECAY_HALF_LIFE_DAYS * (1 + (e.reinforcements : ℚ) * 0.3)))) := by
  simp only [decayEntry, if_neg hnc, if_neg hdn]

theorem decayEntry_strength_bounds (hp : ℚ → ℚ)
    (hhp : ∀ x, 0 ≤ hp x ∧ hp x ≤ 1) (now : ℚ) (e : Entry)
    (hc0 : 0 ≤ e.confidence) (hc1 : e.confidence ≤ 1)
    (h0 : 0 ≤ e.strength) (h1 : e.strength ≤ 1) :
    0 ≤ (decayEntry hp now e).strength ∧ (decayEntry hp now e).strength ≤ 1 := by
  by_cases hskip : (e.resolved = true ∨ e.lifecycle = some "dormant")
  · simp only [decayEntry, if_pos hskip]
    exact ⟨h0, h1⟩
  · by_cases hdays : ((now - e.last_touched) / 86400 < 0.1)
    · simp only [decayEntry, if_neg hskip, if_pos hdays]
      exact ⟨h0, h1⟩
    · rw [decayEntry_strength_eq hp now e hskip hdays]
      set x := ((now - e.last_touched) / 86400) /
        (DECAY_HALF_LIFE_DAYS * (1 + (e.reinforcements : ℚ) * 0.3))
      have hx := hhp x
      have hprod0 : 0 ≤ e.confidence * hp x := mul_nonneg hc0 hx.1
      have hprod1 : e.confidence * hp x ≤ 1 := by
        calc e.confidence * hp x ≤ 1 * 1 := by
              apply mul_le_mul hc1 hx.2 hx.1 (by norm_num)
          _ = 1 := by norm_num
      have hms : MIN_STRENGTH = (1 : ℚ)/10 := by norm_num [MIN_STRENGTH]
      rw [pyMax, hms]
      constructor <;> split_ifs with h <;> linarith

/-- The non-skipping decay step keeps strength within `[0.05, 1]` (in fact
within `[0.1, 1]`). -/
theorem decayEntry_active_floor (hp : ℚ → ℚ)
    (hhp : ∀ x, 0 ≤ hp x ∧ hp x ≤ 1) (now : ℚ) (e : Entry)
    (h1 : e.resolved = false) (h2 : e.lifecycle ≠ some "dormant")
    (h3 : 0.1 ≤ (now - e.last_touched) / 86400)
    (hc0 : 0 ≤ e.confidence) (hc1 : e.confidence ≤ 1) :
    0.05 ≤ (decayEntry hp now e).strength ∧ (decayEntry hp now e).strength ≤ 1 := by
  have hnc : ¬ (e.resolved = true ∨ e.lifecycle = some "dormant") := by
    rintro (h | h)
    · rw [h1] at h; cases h
    · exact h2 h
  have h3n : ¬ ((now - e.last_touched) / 86400 < 0.1) := not_lt.mpr h3
  rw [decayEntry_strength_eq hp now e hnc h3n]
  set x := ((now - e.last_touched) / 86400) /
    (DECAY_HALF_LIFE_DAYS * (1 + (e.reinforcements : ℚ) * 0.3))
  have hx := hhp x
  have hprod1 : e.confidence * hp x ≤ 1 := by
    calc e.confidence * hp x ≤ 1 * 1 := by
          apply mul_le_mul hc1 hx.2 hx.1 (by norm_num)
      _ = 1 := by norm_num
  have hms : MIN_STRENGTH = (1 : ℚ)/10 := by norm_num [MIN_STRENGTH]
  rw [pyMax, hms]
  constructor <;> split_ifs with h <;> linarith

theorem add_preserves_WF (db : Doc) (ty c : String) (conf : ℚ)
    (ev : Option Evid) (src dom : Option String) (tr : Option (List String))
    (lc : Option String) (now : ℚ) (nid : String) (h : WFDoc db) :
    WFDoc (add db ty c conf ev src dom tr lc now nid).1 := by
  by_cases h1 : ty ∈ ENTRY_TYPES
  · by_cases h2 : stripL c.data = []
    · simpa [add, h1, h2] using h
    · cases hm : mergeFirst ty (procC c) ev now db.entries with
      | none =>
        intro e he
        simp only [add, if_neg (not_not_intro h1), if_neg h2, hm] at he
        rw [List.mem_append] at he
        rcases he with he | he
        · exact h e he
        · rw [List.mem_singleton] at he
          subst he
          have hb1 : 0 ≤ pyMax 0.0 (pyMin 1.0 conf) := by
            rw [pyMax, pyMin]
            split_ifs <;> norm_num <;> linarith
          have hb2 : pyMax 0.0 (pyMin 1.0 conf) ≤ 1 := by
            rw [pyMax, pyMin]
            split_ifs <;> norm_num <;> linarith
          exact ⟨⟨hb1, hb2⟩, hb1, hb2⟩
      | some pr =>
        obtain ⟨i, hi, hsim, hmm, hset, _⟩ :=
          mergeFirst_some_set _ _ _ _ _ _ _ hm
        intro e he
        simp only [add, if_neg (not_not_intro h1), if_neg h2, hm] at he
        rw [hset] at he
        rcases List.mem_or_eq_of_mem_set he with he | he
        · exact h e he
        · subst he
          rw [hmm]
          have hold := h db.entries[i] (List.getElem_mem hi)
          refine ⟨⟨hold.1.1, hold.1.2⟩, ?_, ?_⟩
          · have := mergeInto_strength_bounds ev now db.entries[i] hold.2.1
            linarith [this.1]
          · exact (mergeInto_strength_bounds ev now db.entries[i] hold.2.1).2
  · simpa [add, h1] using h

theorem feedback_preserves_WF (db : Doc) (d : ℤ) (ctx : Option String)
    (ids : Option (List String)) (now : ℚ) (h : WFDoc db) :
    WFDoc (feedback db d ctx ids now).1 := by
  intro e he
  simp only [feedback] at he
  rw [List.mem_map] at he
  obtain ⟨p, hp, hpe⟩ := he
  have hp2 : p.2 ∈ db.entries := by
    have : p.2 ∈ db.entries.enum.map Prod.snd := List.mem_map.mpr ⟨p, hp, rfl⟩
    rwa [List.enum_map_snd] at this
  have hold := h p.2 hp2
  by_cases hmem : p.1 ∈ fbTargets db.entries ids
  · rw [if_pos hmem] at hpe
    subst hpe
    have hb := applyFb_strength_bounds now d ctx p.2 hold.2.1 hold.2.2
    refine ⟨?_, ?_, hb.2⟩
    · rw [applyFb_confidence]; exact hold.1
    · linarith [hb.1]
  · rw [if_neg hmem] at hpe
    subst hpe
    exact hold

theorem decay_preserves_WF (hp : ℚ → ℚ) (hhp : ∀ x, 0 ≤ hp x ∧ hp x ≤ 1)
    (now : ℚ) (db : Doc) (h : WFDoc db) : WFDoc (decay hp now db) := by
  intro e he
  simp only [decay] at he
  rw [List.mem_map] at he
  obtain ⟨a, ha, hae⟩ := he
  have hold := h a ha
  subst hae
  refine ⟨?_, decayEntry_strength_bounds hp hhp now a hold.1.1 hold.1.2 hold.2.1 hold.2.2⟩
  rw [decayEntry_confidence]
  exact hold.1

theorem add_confidence_pointwise (db : Doc) (ty c : String) (conf : ℚ)
    (ev : Option Evid) (src dom : Option String) (tr : Option (List String))
    (lc : Option String) (now : ℚ) (nid : String) :
    db.entries.length ≤ (add db ty c conf ev src dom tr lc now nid).1.entries.length ∧
    ∀ i, ∀ hi : i < db.entries.length,
      ∀ hi2 : i < (add db ty c conf ev src dom tr lc now nid).1.entries.length,
      (add db ty c conf ev src dom tr lc now nid).1.entries[i].confidence =
        db.entries[i].confidence := by
  by_cases h1 : ty ∈ ENTRY_TYPES
  · by_cases h2 : stripL c.data = []
    · constructor
      · simp [add, h1, h2]
      · intro i hi hi2
        simp [add, h1, h2]
    · cases hm : mergeFirst ty (procC c) ev now db.entries with
      | none =>
        constructor
        · simp [add, h1, h2, hm]
        · intro i hi hi2
          simp only [add, if_neg (not_not_intro h1), if_neg h2, hm]
          rw [List.getElem_append_left hi]
      | some pr =>
        obtain ⟨j, hj, hsim, hmm, hset, _⟩ :=
          mergeFirst_some_set _ _ _ _ _ _ _ hm
        constructor
        · simp [add, h1, h2, hm, hset]
        · intro i hi hi2
          simp only [add, if_neg (not_not_intro h1), if_neg h2, hm, hset]
          by_cases hij : j = i
          · subst hij
            rw [List.getElem_set_self (by simpa using hj)]
            rw [hmm, (mergeInto_keeps ev now db.entries[j]).2.2.2.1]
          · rw [List.getElem_set_ne hij]
  · constructor
    · simp [add, h1]
    · intro i hi hi2
      simp [add, h1]

theorem decay_confidence_pointwise (hp : ℚ → ℚ) (now : ℚ) (db : Doc) :
    db.entries.length ≤ (decay hp now db).entries.length ∧
    ∀ i, ∀ hi : i < db.entries.length, ∀ hi2 : i < (decay hp now db).entries.length,
      (decay hp now db).entries[i].confidence = db.entries[i].confidence := by
  constructor
  · simp [decay]
  · intro i hi hi2
    simp only [decay] at hi2 ⊢
    rw [List.getElem_map]
    exact decayEntry_confidence hp now db.entries[i]

theorem stepAFD_WF (hp : ℚ → ℚ) (hhp : ∀ x, 0 ≤ hp x ∧ hp x ≤ 1)
    (db db' : Doc) (h : StepAFD hp db db') :
    (WFDoc db → WFDoc db') ∧ db.entries.length ≤ db'.entries.length ∧
    ∀ i, ∀ hi : i < db.entries.length, ∀ hi2 : i < db'.entries.length,
      db'.entries[i].confidence = db.entries[i].confidence := by
  cases h with
  | add_step ty c conf ev src dom tr lc now nid =>
    have hc := add_confidence_pointwise db ty c conf ev src dom tr lc now nid
    exact ⟨add_preserves_WF db ty c conf ev src dom tr lc now nid, hc.1, hc.2⟩
  | feedback_step d ctx ids now =>
    refine ⟨feedback_preserves_WF db d ctx ids now, ?_, ?_⟩
    · rw [feedback_entries_length]
    · intro i hi hi2
      rw [feedback_entries_getElem db d ctx ids now i hi hi2]
      split_ifs with h
      · rw [applyFb_confidence]
      · rfl
  | decay_step now =>
    have hc := decay_confidence_pointwise hp now db
    exact ⟨decay_preserves_WF hp hhp now db, hc.1, hc.2⟩

/-- C1 (amended): over any sequence of `add`/`feedback`/`decay` steps every
entry's confidence and strength stay within `[0, 1]` (for a decay oracle
with range in `[0,1]`), and no step ever changes an existing entry's
confidence (entries are never deleted or reordered, so position identifies
them); a freshly created entry's strength equals its clamped confidence —
inside `[0,1]` but possibly below `0.05`, which is what falsifies the
original claim — while any entry actually mutated by feedback, by a dedup
merge, or by a non-skipped decay step ends with strength in `[0.05, 1]`. -/
theorem C1_strength_bounds_confidence_immutable (hp : ℚ → ℚ)
    (hhp : ∀ x, 0 ≤ hp x ∧ hp x ≤ 1) :
    (∀ db db', Relation.ReflTransGen (StepAFD hp) db db' → WFDoc db → WFDoc db') ∧
    (∀ db db', Relation.ReflTransGen (StepAFD hp) db db' →
      db.entries.length ≤ db'.entries.length ∧
      ∀ i, ∀ hi : i < db.entries.length, ∀ hi2 : i < db'.entries.length,
        db'.entries[i].confidence = db.entries[i].confidence) ∧
    (∀ db ty c conf ev src dom tr lc now nid, ∀ e : Entry,
      (add db ty c conf ev src dom tr lc now nid).1.entries = db.entries ++ [e] →
      e.strength = pyMax 0.0 (pyMin 1.0 conf) ∧ e.confidence = e.strength) ∧
    (∀ now d ctx e, 0 ≤ e.strength → e.strength ≤ 1 →
      0.05 ≤ (applyFb now d ctx e).strength ∧ (applyFb now d ctx e).strength ≤ 1) ∧
    (∀ ev now e, 0 ≤ e.strength →
      0.05 ≤ (mergeInto ev now e).strength ∧ (mergeInto ev now e).strength ≤ 1) ∧
    (∀ now e, e.resolved = false → e.lifecycle ≠ some "dormant" →
      0.1 ≤ (now - e.last_touched) / 86400 →
      0 ≤ e.confidence → e.confidence ≤ 1 →
      0.05 ≤ (decayEntry hp now e).strength ∧ (decayEntry hp now e).strength ≤ 1) := by
  refine ⟨?_, ?_, ?_,
    applyFb_strength_bounds, mergeInto_strength_bounds,
    decayEntry_active_floor hp hhp⟩
  · intro db db' h
    induction h with
    | refl => exact id
    | tail h1 h2 ih =>
      intro hw
      exact (stepAFD_WF hp hhp _ _ h2).1 (ih hw)
  · intro db db' h
    induction h with
    | refl => exact ⟨le_refl _, fun i hi hi2 => rfl⟩
    | @tail mid fin h1 h2 ih =>
      obtain ⟨hl, hc⟩ := ih
      obtain ⟨_, hl2, hc2⟩ := stepAFD_WF hp hhp mid fin h2
      refine ⟨le_trans hl hl2, ?_⟩
      intro i hi hi2
      have him : i < mid.entries.length := lt_of_lt_of_le hi hl
      rw [hc2 i him hi2, hc i hi him]
  · intro db ty c conf ev src dom tr lc now nid e happ
    by_cases h1 : ty ∈ ENTRY_TYPES
    · by_cases h2 : stripL c.data = []
      · exfalso
        have hlen := congrArg List.length happ
        simp [add, h1, h2] at hlen
      · cases hm : mergeFirst ty (procC c) ev now db.entries with
        | some pr =>
          exfalso
          obtain ⟨i, hi, _, _, hset, _⟩ := mergeFirst_some_set _ _ _ _ _ _ _ hm
          have hlen := congrArg List.length happ
          simp [add, h1, h2, hm, hset] at hlen
        | none =>
          have hap2 : db.entries ++
              [newEntry ty (procC c) (pyMax 0.0 (pyMin 1.0 conf)) ev src dom tr
                lc now nid] = db.entries ++ [e] := by
            have h3 := happ
            simp only [add, if_neg (not_not_intro h1), if_neg h2, hm] at h3
            exact h3
          have he : e = newEntry ty (procC c) (pyMax 0.0 (pyMin 1.0 conf)) ev
              src dom tr lc now nid := by
            have h3 := List.append_cancel_left hap2
            rw [List.cons.injEq] at h3
            exact h3.1.symm
          rw [he]
          exact ⟨rfl, rfl⟩
    · exfalso
      have hlen := congrArg List.length happ
      simp [add, h1] at hlen

/-- The document after creating one entry with confidence `0`. -/
def wC1db : Doc :=
  (add defaultDb "perception" "hello there" 0 none none none none none 0 "P-1").1

/-- C1 counterexample: an entry freshly created by `add` with confidence `0`
has strength `0`, below the claimed lower bound `0.05`. -/
theorem C1_counterexample :
    wC1db.entries[0]?.map Entry.strength = some 0 ∧ ¬ ((0.05 : ℚ) ≤ 0) :=
  of_decide_eq_true (by with_unfolding_all rfl)

/-- Concrete entry for the C1 witness. -/
def wC1e : Entry :=
  { id := "P-2", type := "perception", content := "steady", confidence := 0.5,
    evidence := [], source := none, domain := none, trace := [], feedback := [],
    reinforcements := 1, strength := 0.5, created := 0, last_touched := 0,
    resolved := false, lifecycle := none }

/-- Witness for the amended C1 at a concrete input: negative feedback on a
concrete entry keeps strength within `[0.05, 1]`. -/
theorem C1_strength_bounds_confidence_immutable_witness :
    0.05 ≤ (applyFb 5 (-1) none wC1e).strength ∧ (applyFb 5 (-1) none wC1e).strength ≤ 1 :=
  (C1_strength_bounds_confidence_immutable (fun _ => (1 : ℚ)/2)
      (by intro x; norm_num)).2.2.2.1 5 (-1) none wC1e
    (of_decide_eq_true (by with_unfolding_all rfl))
    (of_decide_eq_true (by with_unfolding_all rfl))

/-! ## Claim C5 -/

/-- Document with a non-curiosity entry created through `add`'s lifecycle
override, and a dormant curiosity. -/
def wC5bad : Doc :=
  (add defaultDb "perception" "skewed view" 0.7 none none none none
    (some "active") 0 "P-1").1

def wC5dormant : Entry :=
  { id := "C-d", type := "curiosity", content := "why z", confidence := 0.7,
    evidence := [], source := none, domain := none, trace := [], feedback := [],
    reinforcements := 1, strength := 0.12, created := 0, last_touched := 0,
    resolved := false, lifecycle := some "dormant" }

def wC5ddb : Doc := { defaultDb with entries := [wC5dormant] }

/-- C5 counterexample: (a) `add` with a lifecycle override creates a
`perception` entry with non-null lifecycle, and (b) `evolve_curiosity` on a
dormant curiosity does mutate it (reinforcements bump), contradicting
"lifecycle is non-null only for curiosity" and "evolve leaves a dormant
entry unchanged". -/
theorem C5_counterexample :
    (wC5bad.entries[0]?.map (fun e => (e.type, e.lifecycle)) =
      some ("perception", some "active")) ∧
    ((evolve_curiosity wC5ddb "C-d" none none 9).1.entries[0]?.map
      Entry.reinforcements = some 2) ∧
    ¬ ((evolve_curiosity wC5ddb "C-d" none none 9).1 = wC5ddb) :=
  of_decide_eq_true (by with_unfolding_all rfl)

theorem evolveContent_keeps (nc : Option String) (e : Entry) :
    (evolveContent nc e).lifecycle = e.lifecycle ∧
    (evolveContent nc e).reinforcements = e.reinforcements := by
  cases nc with
  | none => exact ⟨rfl, rfl⟩
  | some str0 => by_cases h : str0 = "" <;> simp [evolveContent, h]

theorem evolveEvidence_keeps (ev : Option Evid) (e : Entry) :
    (evolveEvidence ev e).lifecycle = e.lifecycle ∧
    (evolveEvidence ev e).reinforcements = e.reinforcements := by
  cases ev with
  | none => exact ⟨rfl, rfl⟩
  | some v => by_cases h : v.truthy <;> simp [evolveEvidence, h]

/-- The lifecycle after one `evolve` mutation. -/
theorem evolveEntry_lifecycle (nc : Option String) (ev : Option Evid)
    (now : ℚ) (e : Entry) :
    (evolveEntry nc ev now e).lifecycle =
      if e.lifecycle = some "born" then some "active"
      else if e.lifecycle = some "active" ∧ evTruthy ev = true then some "evolving"
      else e.lifecycle := by
  by_cases hb : e.lifecycle = some "born"
  · simp [evolveEntry, hb]
  · by_cases ha : (e.lifecycle = some "active" ∧ evTruthy ev = true)
    · simp [evolveEntry, hb, ha]
    · simp [evolveEntry, hb, ha,
        (evolveEvidence_keeps ev (evolveContent nc e)).1,
        (evolveContent_keeps nc e).1]

theorem evolveEntry_reinforcements (nc : Option String) (ev : Option Evid)
    (now : ℚ) (e : Entry) :
    (evolveEntry nc ev now e).reinforcements = e.reinforcements + 1 := by
  have hk : (evolveEvidence ev (evolveContent nc e)).reinforcements =
      e.reinforcements := by
    rw [(evolveEvidence_keeps ev (evolveContent nc e)).2,
      (evolveContent_keeps nc e).2]
  by_cases hb : e.lifecycle = some "born"
  · simp [evolveEntry, hb, hk]
  · by_cases ha : (e.lifecycle = some "active" ∧ evTruthy ev = true)
    · simp [evolveEntry, hb, ha, hk]
    · simp [evolveEntry, hb, ha, hk]

/-- C5 (amended): without an explicit lifecycle override, `add` keeps the
invariant that lifecycle is non-null exactly on curiosity entries (existing
entries keep their lifecycle and type; the fresh entry gets `born` iff it is
a curiosity); `decay` never mutates resolved or dormant entries, and it
changes a lifecycle exactly when an unresolved, non-dormant entry at least
0.1 days old is a curiosity whose recomputed strength falls below 0.15 —
then the lifecycle becomes `dormant` whatever its prior stage (a weak `born`
curiosity moves straight to dormant), otherwise it is untouched; `evolve`
either leaves the lifecycle unchanged or advances born→active, or
active→evolving when evidence is supplied — in particular a dormant entry's
lifecycle stays `dormant`, although the entry itself is still mutated
(reinforcements grow); an `evolve` call that returns `None` (unknown id or
non-curiosity target) leaves the document untouched. -/
theorem C5_lifecycle_transitions (hp : ℚ → ℚ) :
    (∀ db ty c conf ev src dom tr now nid, ∀ e1 ∈
        (add db ty c conf ev src dom tr none now nid).1.entries,
      (∃ e0 ∈ db.entries, e1.lifecycle = e0.lifecycle ∧ e1.type = e0.type) ∨
      (e1.lifecycle.isSome = true ↔ e1.type = "curiosity")) ∧
    (∀ now e, e.resolved = true ∨ e.lifecycle = some "dormant" →
      decayEntry hp now e = e) ∧
    (∀ now e, (decayEntry hp now e).lifecycle =
      (if ¬ (e.resolved = true ∨ e.lifecycle = some "dormant") ∧
          ¬ ((now - e.last_touched) / 86400 < 0.1) ∧
          (pyMax MIN_STRENGTH (e.confidence *
              hp ((now - e.last_touched) / 86400 /
                (DECAY_HALF_LIFE_DAYS * (1 + (e.reinforcements : ℚ) * 0.3)))) < 0.15 ∧
            e.type = "curiosity")
        then some "dormant" else e.lifecycle)) ∧
    (∀ nc ev now e,
      ((evolveEntry nc ev now e).lifecycle = e.lifecycle ∨
        (e.lifecycle = some "born" ∧
          (evolveEntry nc ev now e).lifecycle = some "active") ∨
        (e.lifecycle = some "active" ∧ evTruthy ev = true ∧
          (evolveEntry nc ev now e).lifecycle = some "evolving")) ∧
      (e.lifecycle = some "dormant" →
        (evolveEntry nc ev now e).lifecycle = some "dormant" ∧
        (evolveEntry nc ev now e).reinforcements = e.reinforcements + 1)) ∧
    (∀ db cid nc ev now, (evolve_curiosity db cid nc ev now).2 = none →
      (evolve_curiosity db cid nc ev now).1 = db) := by
  refine ⟨?_, ?_, ?_, ?_, ?_⟩
  · intro db ty c conf ev src dom tr now nid e1 he
    by_cases h1 : ty ∈ ENTRY_TYPES
    · by_cases h2 : stripL c.data = []
      · left
        refine ⟨e1, by simpa [add, h1, h2] using he, rfl, rfl⟩
      · cases hm : mergeFirst ty (procC c) ev now db.entries with
        | none =>
          simp only [add, if_neg (not_not_intro h1), if_neg h2, hm] at he
          rw [List.mem_append] at he
          rcases he with he | he
          · exact Or.inl ⟨e1, he, rfl, rfl⟩
          · rw [List.mem_singleton] at he
            subst he
            right
            show (lcDefault ty none).isSome = true ↔ ty = "curiosity"
            by_cases hc : ty = "curiosity" <;> simp [lcDefault, hc]
        | some pr =>
          obtain ⟨i, hi, hsim, hmm, hset, _⟩ :=
            mergeFirst_some_set _ _ _ _ _ _ _ hm
          simp only [add, if_neg (not_not_intro h1), if_neg h2, hm] at he
          rw [hset] at he
          rcases List.mem_or_eq_of_mem_set he with he | he
          · exact Or.inl ⟨e1, he, rfl, rfl⟩
          · subst he
            rw [hmm]
            exact Or.inl ⟨db.entries[i], List.getElem_mem hi,
              (mergeInto_keeps ev now db.entries[i]).2.2.2.2.2.1,
              (mergeInto_keeps ev now db.entries[i]).2.1⟩
    · left
      refine ⟨e1, by simpa [add, h1] using he, rfl, rfl⟩
  · intro now e h
    simp [decayEntry, h]
  · intro now e
    by_cases hskip : (e.resolved = true ∨ e.lifecycle = some "dormant")
    · rw [if_neg (fun hc => hc.1 hskip)]
      simp [decayEntry, hskip]
    · by_cases hdays : ((now - e.last_touched) / 86400 < 0.1)
      · rw [if_neg (fun hc => hc.2.1 hdays)]
        simp [decayEntry, hskip, hdays]
      · by_cases hlc : (pyMax MIN_STRENGTH (e.confidence *
            hp ((now - e.last_touched) / 86400 /
              (DECAY_HALF_LIFE_DAYS * (1 + (e.reinforcements : ℚ) * 0.3)))) < 0.15 ∧
            e.type = "curiosity")
        · rw [if_pos ⟨hskip, hdays, hlc⟩]
          simp only [decayEntry, if_neg hskip, if_neg hdays]
          simp [if_pos hlc]
        · rw [if_neg (fun hc => hlc hc.2.2)]
          simp only [decayEntry, if_neg hskip, if_neg hdays]
          simp [if_neg hlc]
  · intro nc ev now e
    constructor
    · rw [evolveEntry_lifecycle]
      by_cases hb : e.lifecycle = some "born"
      · rw [if_pos hb]
        exact Or.inr (Or.inl ⟨hb, rfl⟩)
      · rw [if_neg hb]
        by_cases ha : (e.lifecycle = some "active" ∧ evTruthy ev = true)
        · rw [if_pos ha]
          exact Or.inr (Or.inr ⟨ha.1, ha.2, rfl⟩)
        · rw [if_neg ha]
          exact Or.inl rfl
    · intro hd
      have hb : ¬ (e.lifecycle = some "born") := by simp [hd]
      have ha : ¬ (e.lifecycle = some "active" ∧ evTruthy ev = true) := by
        simp [hd]
      constructor
      · rw [evolveEntry_lifecycle, if_neg hb, if_neg ha]
        exact hd
      · exact evolveEntry_reinforcements nc ev now e
  · intro db cid nc ev now h
    cases hf : findFirst (fun e => e.id == cid) db.entries with
    | none => simp [evolve_curiosity, hf]
    | some e =>
      by_cases ht : e.type = "curiosity"
      · exfalso
        simp [evolve_curiosity, hf, ht] at h
      · simp [evolve_curiosity, hf, ht]

/-- Witness for the amended C5: decay leaves the concrete dormant curiosity
unchanged. -/
theorem C5_lifecycle_transitions_witness :
    decayEntry (fun _ => (1 : ℚ)/2) 9 wC5dormant = wC5dormant :=
  (C5_lifecycle_transitions (fun _ => (1 : ℚ)/2)).2.1 9 wC5dormant
    (Or.inr (by decide))

/-! ## Claim C6 -/

theorem updateFirst_mem (p : Entry → Bool) (f : Entry → Entry)
    (l : List Entry) (y : Entry) (h : y ∈ updateFirst p f l) :
    y ∈ l ∨ ∃ x ∈ l, y = f x := by
  induction l with
  | nil => cases h
  | cons a t ih =>
    by_cases ha : p a
    · simp only [updateFirst, if_pos ha] at h
      rcases List.mem_cons.mp h with rfl | h
      · exact Or.inr ⟨a, List.mem_cons_self a t, rfl⟩
      · exact Or.inl (List.mem_cons_of_mem a h)
    · simp only [updateFirst, if_neg ha] at h
      rcases List.mem_cons.mp h with rfl | h
      · exact Or.inl (List.mem_cons_self y t)
      · rcases ih h with h | ⟨x, hx, hy⟩
        · exact Or.inl (List.mem_cons_of_mem a h)
        · exact Or.inr ⟨x, List.mem_cons_of_mem a hx, hy⟩

/-- `add` leaves an already-resolved entry's slot untouched (it can merge
only into unresolved entries, and creation only appends). -/
theorem add_getElem?_of_resolved (db : Doc) (ty c : String) (conf : ℚ)
    (ev : Option Evid) (src dom : Option String) (tr : Option (List String))
    (lc : Option String) (now : ℚ) (nid : String) (i : Nat)
    (hi : i < db.entries.length) (hres : db.entries[i].resolved = true) :
    (add db ty c conf ev src dom tr lc now nid).1.entries[i]? =
      some db.entries[i] := by
  by_cases h1 : ty ∈ ENTRY_TYPES
  · by_cases h2 : stripL c.data = []
    · simp only [add, if_neg (not_not_intro h1), if_pos h2]
      exact List.getElem?_eq_getElem hi
    · cases hm : mergeFirst ty (procC c) ev now db.entries with
      | none =>
        simp only [add, if_neg (not_not_intro h1), if_neg h2, hm]
        rw [List.getElem?_append, if_pos hi]
        exact List.getElem?_eq_getElem hi
      | some pr =>
        obtain ⟨j, hj, hsim, hmm, hset, _⟩ :=
          mergeFirst_some_set _ _ _ _ _ _ _ hm
        have hne : j ≠ i := by
          intro hji
          subst hji
          have h3 := hsim.2.1
          rw [hres] at h3
          cases h3
        simp only [add, if_neg (not_not_intro h1), if_neg h2, hm, hset]
        rw [List.getElem?_set_ne hne]
        exact List.getElem?_eq_getElem hi
  · simp only [add, if_pos h1]
    exact List.getElem?_eq_getElem hi

/-- Document used by the C6 counterexample and witness. -/
def wC6src : Entry :=
  { id := "C-1", type := "curiosity", content := "why does x happen",
    confidence := 0.7, evidence := [Evid.str "e1"], source := none,
    domain := some "dom", trace := [], feedback := [], reinforcements := 1,
    strength := 0.5, created := 0, last_touched := 0, resolved := false,
    lifecycle := some "active" }

def wC6db : Doc := { defaultDb with entries := [wC6src] }

/-- C6 counterexample: resolving a known id with an empty resolution string
marks the source resolved but creates no new entry at all (`add` rejects the
empty content and returns `None`), contradicting "produces exactly one new
entry of the requested becomes_type with confidence 0.8 …". -/
theorem C6_counterexample :
    (resolve_curiosity wC6db "C-1" "" "perception" 5 "P-9").2 = none ∧
    (resolve_curiosity wC6db "C-1" "" "perception" 5 "P-9").1.entries.length = 1 ∧
    (resolve_curiosity wC6db "C-1" "" "perception" 5 "P-9").1.entries[0]?.map
      Entry.resolved = some true :=
  of_decide_eq_true (by with_unfolding_all rfl)

/-- C6 (amended): for a known id, `resolve_curiosity` always marks the
found entry `resolved = true` with lifecycle `resolved` and a refreshed
`last_touched`; when moreover the resolution content is non-empty, the
becomes-type is one of the six kinds, and no document entry dedup-matches
the resolution content, exactly one new entry is appended, returned, and
carries type `becomes_type`, confidence and strength `0.8`,
`trace = [source id]`, the inherited domain, the provenance source string,
and the source's accumulated evidence wrapped as one list-valued evidence
item (empty when the source had none) — not the source's evidence list
itself. -/
theorem C6_resolve_effect (db : Doc) (cid rc bt : String) (now : ℚ)
    (nid : String) (e : Entry)
    (hfind : findFirst (fun x => x.id == cid) db.entries = some e) :
    (∃ i, ∃ hi : i < db.entries.length, db.entries[i] = e ∧
      (resolve_curiosity db cid rc bt now nid).1.entries[i]? =
        some (markResolved now e)) ∧
    (bt ∈ ENTRY_TYPES → ¬ stripL rc.data = [] →
      (∀ x ∈ db.entries, ¬ simMatch bt (procC rc) x) →
      ∃ ne : Entry,
        (resolve_curiosity db cid rc bt now nid).2 = some ne ∧
        (resolve_curiosity db cid rc bt now nid).1.entries =
          updateFirst (fun x => x.id == cid) (markResolved now) db.entries
            ++ [ne] ∧
        (resolve_curiosity db cid rc bt now nid).1.entries.length =
          db.entries.length + 1 ∧
        ne.type = bt ∧ ne.confidence = 0.8 ∧ ne.strength = 0.8 ∧
        ne.content = procC rc ∧
        ne.trace = [cid] ∧ ne.domain = e.domain ∧
        ne.source = some ("resolved from " ++ cid) ∧
        ne.evidence = (if e.evidence.isEmpty then []
                       else [Evid.ofList e.evidence]) ∧
        ne.resolved = false) := by
  obtain ⟨i, hi, hie, hpe, _, hupd⟩ :=
    find?_updateFirst_set (fun x => x.id == cid) (markResolved now) db.entries e hfind
  have hdb1 : (updateFirst (fun x => x.id == cid) (markResolved now) db.entries) =
      db.entries.set i (markResolved now e) := hupd
  constructor
  · refine ⟨i, hi, hie, ?_⟩
    have hlt : i < (db.entries.set i (markResolved now e)).length := by
      simpa using hi
    have hresolved : (db.entries.set i (markResolved now e))[i].resolved = true := by
      rw [List.getElem_set_self (by simpa using hi)]
      rfl
    simp only [resolve_curiosity, hfind]
    rw [hdb1]
    have hpres := add_getElem?_of_resolved
      { db with entries := db.entries.set i (markResolved now e) } bt rc 0.8
      (some (Evid.ofList e.evidence)) (some ("resolved from " ++ cid)) e.domain
      (some [cid]) none now nid i (by simpa using hi) hresolved
    rw [hpres]
    congr 1
    exact List.getElem_set_self (by simpa using hi)
  · intro hty hnz hnm
    have hnm1 : ∀ x ∈ db.entries.set i (markResolved now e),
        ¬ simMatch bt (procC rc) x := by
      intro x hx
      have hor : x ∈ db.entries ∨ x = markResolved now e :=
        List.mem_or_eq_of_mem_set hx
      rcases hor with hx2 | rfl
      · exact hnm x hx2
      · intro hs
        have h3 := hs.2.1
        have h4 : (markResolved now e).resolved = true := rfl
        rw [h4] at h3
        cases h3
    have hmerge : mergeFirst bt (procC rc) (some (Evid.ofList e.evidence)) now
        (db.entries.set i (markResolved now e)) = none :=
      (mergeFirst_none_iff _ _ _ _ _).mpr hnm1
    refine ⟨newEntry bt (procC rc) (pyMax 0.0 (pyMin 1.0 0.8))
      (some (Evid.ofList e.evidence)) (some ("resolved from " ++ cid)) e.domain
      (some [cid]) none now nid, ?_⟩
    have hclamp : pyMax 0.0 (pyMin 1.0 0.8) = 0.8 := by
      norm_num [pyMax, pyMin]
    have hres : resolve_curiosity db cid rc bt now nid =
        (add { db with entries := db.entries.set i (markResolved now e) } bt rc 0.8
          (some (Evid.ofList e.evidence)) (some ("resolved from " ++ cid)) e.domain
          (some [cid]) none now nid) := by
      simp only [resolve_curiosity, hfind]
      rw [hdb1]
    rw [hres]
    refine ⟨?_, ?_, ?_, ?_, ?_, ?_, ?_, ?_, ?_, ?_, ?_, ?_⟩
    · simp [add, hty, hnz, hmerge]
    · rw [hdb1]
      simp [add, hty, hnz, hmerge]
    · simp [add, hty, hnz, hmerge]
    · exact rfl
    · exact hclamp
    · exact hclamp
    · exact rfl
    · exact rfl
    · exact rfl
    · exact rfl
    · show (match (some (Evid.ofList e.evidence) : Option Evid) with
        | some v => if v.truthy then [v] else []
        | none => []) = (if e.evidence.isEmpty then [] else [Evid.ofList e.evidence])
      cases he : e.evidence with
      | nil => simp [Evid.ofList, Evid.truthy]
      | cons a t => simp [Evid.ofList, Evid.truthy]
    · exact rfl

/-- Witness for the amended C6 at a concrete input. -/
theorem C6_resolve_effect_witness :
    ∃ ne : Entry,
      (resolve_curiosity wC6db "C-1" "x causes y" "perception" 5 "P-9").2 = some ne ∧
      ne.type = "perception" ∧ ne.confidence = 0.8 ∧ ne.trace = ["C-1"] := by
  obtain ⟨hmark, hrest⟩ := C6_resolve_effect wC6db "C-1" "x causes y" "perception"
    5 "P-9" wC6src (of_decide_eq_true (by with_unfolding_all rfl))
  obtain ⟨ne, h1, h2, h3, h4, h5, h6, h7, h8, h9, h10, h11, h12⟩ :=
    hrest (by decide) (by decide)
      (by
        intro x hx
        have hx2 : x = wC6src := List.mem_singleton.mp hx
        subst hx2
        exact of_decide_eq_true (by with_unfolding_all rfl))
  exact ⟨ne, h1, h4, h5, h8⟩

/-! ## C8: occurrence infrastructure for `inject_into_boot` -/

theorem occAt_le_length {pat s : List Char} {i : Nat} (hpat : pat ≠ [])
    (h : occAt pat s i) : i + pat.length ≤ s.length := by
  unfold occAt at h
  have h1 : ((s.drop i).take pat.length).length = pat.length := by rw [h]
  rw [List.length_take, List.length_drop] at h1
  have h2 : 0 < pat.length := List.length_pos.mpr hpat
  omega

theorem occAt_nil {pat : List Char} (hpat : pat ≠ []) (i : Nat) : ¬ occAt pat [] i := by
  intro h
  have h2 := occAt_le_length hpat h
  have h3 : 0 < pat.length := List.length_pos.mpr hpat
  simp only [List.length_nil] at h2
  omega

theorem noOcc_of_short {pat s : List Char} (hpat : pat ≠ [])
    (hlen : s.length < pat.length) : ∀ i, ¬ occAt pat s i := by
  intro i h
  have := occAt_le_length hpat h
  omega

theorem noOcc_of_ball {pat s : List Char} (hpat : pat ≠ [])
    (h : ∀ i, i < s.length → ¬ occAt pat s i) : ∀ i, ¬ occAt pat s i := by
  intro i hi
  rcases Nat.lt_or_ge i s.length with h1 | h1
  · exact h i h1 hi
  · have h2 := occAt_le_length hpat hi
    have h3 : 0 < pat.length := List.length_pos.mpr hpat
    omega

theorem take_append_of_le {X Y : List Char} {k : Nat} (h : k ≤ X.length) :
    (X ++ Y).take k = X.take k := by
  rw [List.take_append_eq_append_take, Nat.sub_eq_zero_of_le h, List.take_zero,
    List.append_nil]

/-- Where an occurrence inside an append can sit: wholly in the left part,
wholly in the right part (shifted), or straddling the junction. -/
theorem occAt_append {pat X Y : List Char} {i : Nat} (h : occAt pat (X ++ Y) i) :
    occAt pat X i ∨
    (∃ j, i = X.length + j ∧ occAt pat Y j) ∨
    (i < X.length ∧ X.length < i + pat.length ∧
      pat.take (X.length - i) = X.drop i ∧
      pat.drop (X.length - i) = Y.take (i + pat.length - X.length)) := by
  unfold occAt at h
  rcases Nat.lt_or_ge i X.length with hge | hle
  · rw [List.drop_append_eq_append_drop, Nat.sub_eq_zero_of_le (le_of_lt hge),
      List.drop_zero, List.take_append_eq_append_take] at h
    have hlen : (X.drop i).length = X.length - i := List.length_drop i X
    rcases le_or_lt (i + pat.length) X.length with hle2 | hlt2
    · left
      unfold occAt
      have h0 : pat.length - (X.drop i).length = 0 := by omega
      rw [h0, List.take_zero, List.append_nil] at h
      exact h
    · right; right
      have htk : (X.drop i).take pat.length = X.drop i :=
        List.take_of_length_le (by omega)
      rw [htk] at h
      refine ⟨hge, hlt2, ?_, ?_⟩
      · rw [← h, List.take_append_eq_append_take, hlen, Nat.sub_self, List.take_zero,
          List.append_nil]
        exact List.take_of_length_le (le_of_eq hlen)
      · have hidx : pat.length - (X.length - i) = i + pat.length - X.length := by omega
        have h5 := congrArg (List.drop (X.length - i)) h
        rw [List.drop_append_eq_append_drop,
          List.drop_eq_nil_of_le (le_of_eq hlen), List.nil_append, hlen,
          Nat.sub_self, List.drop_zero] at h5
        rw [← h5, hidx]
  · right; left
    refine ⟨i - X.length, by omega, ?_⟩
    unfold occAt
    rw [List.drop_append_eq_append_drop, List.drop_eq_nil_of_le hle,
      List.nil_append] at h
    exact h

/-- For a newline-free pattern, an occurrence in `X ++ '\n' :: Y` is wholly
inside `X` or wholly inside `Y`. -/
theorem occAt_append_nl {pat X Y : List Char} {i : Nat} (hpat : pat ≠ [])
    (hnl : ∀ c ∈ pat, ¬ c = '\n') (h : occAt pat (X ++ '\n' :: Y) i) :
    occAt pat X i ∨ ∃ j, i = X.length + 1 + j ∧ occAt pat Y j := by
  rcases occAt_append h with h1 | ⟨j, hij, hY⟩ | ⟨h1, h2, h3, h4⟩
  · exact Or.inl h1
  · cases j with
    | zero =>
      exfalso
      unfold occAt at hY
      cases pat with
      | nil => exact hpat rfl
      | cons p pr =>
        simp only [List.drop_zero, List.length_cons, List.take_succ_cons,
          List.cons.injEq] at hY
        exact hnl p (List.mem_cons_self p pr) hY.1.symm
    | succ j2 =>
      refine Or.inr ⟨j2, by omega, ?_⟩
      unfold occAt at hY ⊢
      simpa using hY
  · exfalso
    have hk : ∃ k2, i + pat.length - X.length = k2 + 1 :=
      ⟨i + pat.length - X.length - 1, by omega⟩
    rcases hk with ⟨k2, hk⟩
    rw [hk, List.take_succ_cons] at h4
    have hmem : '\n' ∈ pat.drop (X.length - i) := by
      rw [h4]; exact List.mem_cons_self _ _
    exact hnl '\n' (List.mem_of_mem_drop hmem) rfl

/-- For a newline-free pattern, an occurrence in `'\n' :: Y` is inside `Y`. -/
theorem occAt_cons_nl {pat Y : List Char} {i : Nat} (hpat : pat ≠ [])
    (hnl : ∀ c ∈ pat, ¬ c = '\n') (h : occAt pat ('\n' :: Y) i) :
    ∃ j, i = j + 1 ∧ occAt pat Y j := by
  cases i with
  | zero =>
    exfalso
    unfold occAt at h
    cases pat with
    | nil => exact hpat rfl
    | cons p pr =>
      simp only [List.drop_zero, List.length_cons, List.take_succ_cons,
        List.cons.injEq] at h
      exact hnl p (List.mem_cons_self p pr) h.1.symm
  | succ j =>
    refine ⟨j, rfl, ?_⟩
    unfold occAt at h ⊢
    simpa using h

/-- Occurrences inside a prefix are occurrences in the whole list. -/
theorem occAt_take {pat s : List Char} {k i : Nat} (h : occAt pat (s.take k) i) :
    occAt pat s i := by
  unfold occAt at h ⊢
  rw [List.drop_take, List.take_take] at h
  have hl := congrArg List.length h
  rw [List.length_take, List.length_drop] at hl
  have h2 : pat.length ≤ k - i := by
    calc pat.length = _ := hl.symm
    _ ≤ pat.length ⊓ (k - i) := inf_le_left
    _ ≤ k - i := inf_le_right
  rwa [inf_eq_left.mpr h2] at h

theorem dropWhile_eq_drop (p : Char → Bool) (l : List Char) :
    ∃ j, j ≤ l.length ∧ l.dropWhile p = l.drop j := by
  induction l with
  | nil => exact ⟨0, by simp, rfl⟩
  | cons c r ih =>
    by_cases h : p c = true
    · rcases ih with ⟨j, hj, hd⟩
      refine ⟨j + 1, by simp; omega, ?_⟩
      rw [List.dropWhile_cons, if_pos h, List.drop_succ_cons]
      exact hd
    · refine ⟨0, by simp, ?_⟩
      rw [List.dropWhile_cons, if_neg h, List.drop_zero]

theorem rstripL_eq_take (s : List Char) : ∃ k, k ≤ s.length ∧ rstripL s = s.take k := by
  rcases dropWhile_eq_drop isWs s.reverse with ⟨j, hj, hd⟩
  refine ⟨s.length - j, by omega, ?_⟩
  rw [rstripL, hd, List.reverse_drop, List.reverse_reverse, List.length_reverse]

theorem occAt_cons_succ {pat r : List Char} {c : Char} {j : Nat} :
    occAt pat (c :: r) (j + 1) ↔ occAt pat r j := by
  unfold occAt
  rw [List.drop_succ_cons]

/-- `findMark` (Python `in` + `.index`) returns `none` iff the pattern occurs
nowhere. -/
theorem findMark_eq_none_iff {pat : List Char} (hpat : pat ≠ []) (s : List Char) :
    findMark pat s = none ↔ ∀ j, ¬ occAt pat s j := by
  induction s with
  | nil =>
    simp only [findMark, true_iff]
    exact occAt_nil hpat
  | cons c r ih =>
    unfold findMark
    by_cases h : hmAt pat (c :: r) = true
    · rw [if_pos h]
      have hocc : occAt pat (c :: r) 0 := by
        unfold occAt
        rw [List.drop_zero]
        exact of_decide_eq_true h
      constructor
      · intro he; exact Option.noConfusion he
      · intro h2; exact absurd hocc (h2 0)
    · rw [if_neg h]
      have hocc0 : ¬ occAt pat (c :: r) 0 := by
        unfold occAt
        rw [List.drop_zero]
        exact of_decide_eq_false (by simpa [hmAt] using h)
      rw [Option.map_eq_none', ih]
      constructor
      · intro h2 j
        cases j with
        | zero => exact hocc0
        | succ j2 => intro hc; exact h2 j2 (occAt_cons_succ.mp hc)
      · intro h2 j hc
        exact h2 (j + 1) (occAt_cons_succ.mpr hc)

/-- `findMark` returns `some k` iff the pattern occurs at `k` and at no
earlier position (Python `.index` semantics). -/
theorem findMark_eq_some_iff {pat : List Char} (hpat : pat ≠ []) (s : List Char)
    (k : Nat) :
    findMark pat s = some k ↔ occAt pat s k ∧ ∀ j, j < k → ¬ occAt pat s j := by
  induction s generalizing k with
  | nil =>
    constructor
    · intro he; exact Option.noConfusion he
    · rintro ⟨h1, -⟩; exact absurd h1 (occAt_nil hpat k)
  | cons c r ih =>
    unfold findMark
    by_cases h : hmAt pat (c :: r) = true
    · rw [if_pos h]
      have hocc : occAt pat (c :: r) 0 := by
        unfold occAt
        rw [List.drop_zero]
        exact of_decide_eq_true h
      constructor
      · intro he
        have hk : k = 0 := (Option.some.injEq 0 k).mp he |>.symm
        subst hk
        exact ⟨hocc, by omega⟩
      · rintro ⟨h1, h2⟩
        rcases Nat.eq_zero_or_pos k with rfl | hk
        · rfl
        · exact absurd hocc (h2 0 hk)
    · rw [if_neg h]
      have hocc0 : ¬ occAt pat (c :: r) 0 := by
        unfold occAt
        rw [List.drop_zero]
        exact of_decide_eq_false (by simpa [hmAt] using h)
      constructor
      · intro he
        rcases Option.map_eq_some'.mp he with ⟨k2, hk2, hkk⟩
        rcases (ih k2).mp hk2 with ⟨h1, h2⟩
        subst hkk
        refine ⟨occAt_cons_succ.mpr h1, ?_⟩
        intro j hj
        cases j with
        | zero => exact hocc0
        | succ j2 => intro hc; exact h2 j2 (by omega) (occAt_cons_succ.mp hc)
      · rintro ⟨h1, h2⟩
        cases k with
        | zero => exact absurd h1 hocc0
        | succ k2 =>
          have h1' : occAt pat r k2 := occAt_cons_succ.mp h1
          have h2' : ∀ j, j < k2 → ¬ occAt pat r j := fun j hj hc =>
            h2 (j + 1) (by omega) (occAt_cons_succ.mpr hc)
          rw [(ih k2).mpr ⟨h1', h2'⟩]
          rfl

/-! ## C8: structure of the injected block and its strip -/

theorem rstripL_append_singleton (l : List Char) (c : Char) :
    rstripL (l ++ [c]) = if isWs c then rstripL l else l ++ [c] := by
  unfold rstripL
  rw [List.reverse_append, List.reverse_singleton, List.singleton_append,
    List.dropWhile_cons]
  by_cases h : isWs c = true
  · rw [if_pos h, if_pos h]
  · rw [if_neg h, if_neg h, List.reverse_cons, List.reverse_reverse]

theorem lstripL_cons_of_neg (c : Char) (l : List Char) (hc : isWs c = false) :
    lstripL (c :: l) = c :: l := by
  unfold lstripL
  rw [List.dropWhile_cons, hc]
  rfl

theorem lstripL_cons_of_pos (c : Char) (l : List Char) (hc : isWs c = true) :
    lstripL (c :: l) = lstripL l := by
  unfold lstripL
  rw [List.dropWhile_cons, hc]
  rfl

theorem mkBlock_eq (ev lens : List Char) :
    mkBlock ev lens = '\n' :: (coreBlock ev lens ++ ['\n']) := by
  simp [mkBlock, coreBlock]

theorem coreBlock_eq_CPRE (ev lens : List Char) :
    coreBlock ev lens = CPRE ev lens ++ END_MARKER := by
  simp [coreBlock, CPRE]

theorem CPRE_length (ev lens : List Char) :
    (CPRE ev lens).length =
      START_MARKER.length + 1 + (LS_HEADING.length + 2 + (ev.length + 2 +
        (lens.length + 1))) := by
  simp [CPRE]
  omega

theorem stripL_mkBlock (ev lens : List Char) :
    stripL (mkBlock ev lens) = coreBlock ev lens := by
  have h1 : mkBlock ev lens = ('\n' :: coreBlock ev lens) ++ ['\n'] := by
    rw [mkBlock_eq]
    rfl
  have h2 : rstripL (mkBlock ev lens) = '\n' :: coreBlock ev lens := by
    rw [h1, rstripL_append_singleton, if_pos (by decide : isWs '\n' = true)]
    have h3 : '\n' :: coreBlock ev lens =
        ('\n' :: (CPRE ev lens ++ "<!-- LIVE_STATE_END --".toList)) ++ ['>'] := by
      rw [coreBlock_eq_CPRE,
        show END_MARKER = "<!-- LIVE_STATE_END --".toList ++ ['>'] from by decide]
      simp
    rw [h3, rstripL_append_singleton, if_neg (by decide : ¬ isWs '>' = true), ← h3]
  rw [stripL, h2, lstripL_cons_of_pos _ _ (by decide)]
  have h4 : coreBlock ev lens = '<' :: ("!-- LIVE_STATE_START -->".toList ++
      '\n' :: (LS_HEADING ++ '\n' :: '\n' ::
        (ev ++ '\n' :: '\n' :: (lens ++ '\n' :: END_MARKER)))) := by
    rw [coreBlock, show START_MARKER = '<' :: "!-- LIVE_STATE_START -->".toList from
      by decide]
    rfl
  rw [h4, lstripL_cons_of_neg _ _ (by decide), ← h4]

/-- Under no-marker-in-inputs hypotheses, `START_MARKER` occurs in the
stripped block only at position 0. -/
theorem occ_start_coreBlock {ev lens : List Char} {i : Nat}
    (hev : ∀ j, ¬ occAt START_MARKER ev j) (hlens : ∀ j, ¬ occAt START_MARKER lens j)
    (h : occAt START_MARKER (coreBlock ev lens) i) : i = 0 := by
  have hpat : START_MARKER ≠ [] := by decide
  have hnl : ∀ c ∈ START_MARKER, ¬ c = '\n' := by decide
  unfold coreBlock at h
  rcases occAt_append_nl hpat hnl h with h1 | ⟨j1, hi1, h1⟩
  · have h7 := occAt_le_length hpat h1
    have h8 : 0 < START_MARKER.length := by decide
    omega
  · exfalso
    rcases occAt_append_nl hpat hnl h1 with h2 | ⟨j2, hj2, h2⟩
    · exact absurd h2 (noOcc_of_ball hpat (by decide) j1)
    · rcases occAt_cons_nl hpat hnl h2 with ⟨j3, hj3, h3⟩
      rcases occAt_append_nl hpat hnl h3 with h4 | ⟨j4, hj4, h4⟩
      · exact absurd h4 (hev j3)
      · rcases occAt_cons_nl hpat hnl h4 with ⟨j5, hj5, h5⟩
        rcases occAt_append_nl hpat hnl h5 with h6 | ⟨j6, hj6, h6⟩
        · exact absurd h6 (hlens j5)
        · have h7 := occAt_le_length hpat h6
          have h8 : END_MARKER.length < START_MARKER.length := by decide
          omega

/-- Under the same hypotheses, `END_MARKER` occurs in the stripped block only
right at its end, i.e. at offset `|CPRE|`. -/
theorem occ_end_coreBlock {ev lens : List Char} {i : Nat}
    (hev : ∀ j, ¬ occAt END_MARKER ev j) (hlens : ∀ j, ¬ occAt END_MARKER lens j)
    (h : occAt END_MARKER (coreBlock ev lens) i) : i = (CPRE ev lens).length := by
  have hpat : END_MARKER ≠ [] := by decide
  have hnl : ∀ c ∈ END_MARKER, ¬ c = '\n' := by decide
  unfold coreBlock at h
  rcases occAt_append_nl hpat hnl h with h1 | ⟨j1, hi1, h1⟩
  · exact absurd h1 (noOcc_of_ball hpat (by decide) i)
  · rcases occAt_append_nl hpat hnl h1 with h2 | ⟨j2, hj2, h2⟩
    · exact absurd h2 (noOcc_of_ball hpat (by decide) j1)
    · rcases occAt_cons_nl hpat hnl h2 with ⟨j3, hj3, h3⟩
      rcases occAt_append_nl hpat hnl h3 with h4 | ⟨j4, hj4, h4⟩
      · exact absurd h4 (hev j3)
      · rcases occAt_cons_nl hpat hnl h4 with ⟨j5, hj5, h5⟩
        rcases occAt_append_nl hpat hnl h5 with h6 | ⟨j6, hj6, h6⟩
        · exact absurd h6 (hlens j5)
        · have h7 := occAt_le_length hpat h6
          have h8 : 0 < END_MARKER.length := by decide
          have hlen := CPRE_length ev lens
          omega

theorem coreBlock_length (ev lens : List Char) :
    (coreBlock ev lens).length = (CPRE ev lens).length + END_MARKER.length := by
  rw [coreBlock_eq_CPRE, List.length_append]

/-- No non-trivial final segment of `START_MARKER` is an initial segment of
`START_MARKER`: the marker cannot straddle a junction whose right side starts
with the marker. -/
theorem start_border : ∀ d, d < START_MARKER.length → 0 < d →
    ¬ START_MARKER.drop d = START_MARKER.take (START_MARKER.length - d) := by decide

/-- No final segment of `END_MARKER` is an initial segment of `START_MARKER`. -/
theorem end_start_border : ∀ d, d < END_MARKER.length → 0 < d →
    ¬ END_MARKER.drop d = START_MARKER.take (END_MARKER.length - d) := by decide

/-- Documents of the shape `P ++ coreBlock ++ S` with a marker-free `P` are
fixed points of `inject_into_boot`. -/
theorem inject_fixed (ev lens P S : List Char)
    (hevE : ∀ j, ¬ occAt END_MARKER ev j) (hlnE : ∀ j, ¬ occAt END_MARKER lens j)
    (hPS : ∀ j, ¬ occAt START_MARKER P j) (hPE : ∀ j, ¬ occAt END_MARKER P j) :
    inject_into_boot (some (P ++ coreBlock ev lens ++ S)) ev lens =
      some (P ++ coreBlock ev lens ++ S) := by
  have hs0 : 0 < START_MARKER.length := by decide
  have he0 : 0 < END_MARKER.length := by decide
  have hes : END_MARKER.length < START_MARKER.length := by decide
  have hcoreLen := coreBlock_length ev lens
  have hcpreLen := CPRE_length ev lens
  have hStartLe : START_MARKER.length ≤ (coreBlock ev lens).length := by omega
  have h_start : findMark START_MARKER (P ++ coreBlock ev lens ++ S) =
      some P.length := by
    refine (findMark_eq_some_iff (by decide) _ _).mpr ⟨?_, ?_⟩
    · unfold occAt
      rw [List.append_assoc, List.drop_left]
      unfold coreBlock
      rw [List.append_assoc]
      exact List.take_left _ _
    · intro j hj hocc
      rw [List.append_assoc] at hocc
      rcases occAt_append hocc with h1 | ⟨j2, hj2, h2⟩ | ⟨hj1, hj2, h3, h4⟩
      · exact hPS j h1
      · omega
      · have htake : (coreBlock ev lens ++ S).take
            (j + START_MARKER.length - P.length) =
            START_MARKER.take (j + START_MARKER.length - P.length) := by
          rw [take_append_of_le (le_trans (by omega) hStartLe)]
          unfold coreBlock
          rw [take_append_of_le (by omega)]
        rw [htake] at h4
        have hidx : j + START_MARKER.length - P.length =
            START_MARKER.length - (P.length - j) := by omega
        rw [hidx] at h4
        exact start_border (P.length - j) (by omega) (by omega) h4
  have h_end : findMark END_MARKER (P ++ coreBlock ev lens ++ S) =
      some (P.length + (CPRE ev lens).length) := by
    refine (findMark_eq_some_iff (by decide) _ _).mpr ⟨?_, ?_⟩
    · unfold occAt
      have hC2 : P ++ coreBlock ev lens ++ S =
          (P ++ CPRE ev lens) ++ (END_MARKER ++ S) := by
        rw [coreBlock_eq_CPRE]
        simp [List.append_assoc]
      rw [hC2, show P.length + (CPRE ev lens).length = (P ++ CPRE ev lens).length
        from (List.length_append _ _).symm, List.drop_left]
      exact List.take_left _ _
    · intro j hj hocc
      rw [List.append_assoc] at hocc
      rcases occAt_append hocc with h1 | ⟨j2, hj2, h2⟩ | ⟨hj1, hj2, h3, h4⟩
      · exact hPE j h1
      · rcases occAt_append h2 with h5 | ⟨j3, hj3, h6⟩ | ⟨hj4, hj5, h7, h8⟩
        · have := occ_end_coreBlock hevE hlnE h5
          omega
        · omega
        · omega
      · have htake : (coreBlock ev lens ++ S).take
            (j + END_MARKER.length - P.length) =
            START_MARKER.take (j + END_MARKER.length - P.length) := by
          rw [take_append_of_le (le_trans (by omega) hStartLe)]
          unfold coreBlock
          rw [take_append_of_le (by omega)]
        rw [htake] at h4
        have hidx : j + END_MARKER.length - P.length =
            END_MARKER.length - (P.length - j) := by omega
        rw [hidx] at h4
        exact end_start_border (P.length - j) (by omega) (by omega) h4
  have htake2 : (P ++ coreBlock ev lens ++ S).take P.length = P := by
    rw [List.append_assoc]
    exact List.take_left _ _
  have hdrop2 : (P ++ coreBlock ev lens ++ S).drop
      (P.length + (CPRE ev lens).length + END_MARKER.length) = S := by
    have hC3 : P ++ coreBlock ev lens ++ S =
        (P ++ CPRE ev lens ++ END_MARKER) ++ S := by
      rw [coreBlock_eq_CPRE]
      simp [List.append_assoc]
    have hL : P.length + (CPRE ev lens).length + END_MARKER.length =
        (P ++ CPRE ev lens ++ END_MARKER).length := by
      simp only [List.length_append]
    rw [hC3, hL]
    exact List.drop_left _ _
  simp only [inject_into_boot, h_start, h_end]
  rw [stripL_mkBlock, htake2, hdrop2]

/-- **C8** (amended).  For evidence and lens strings free of both sentinel
markers, `inject_into_boot` is a no-op on a missing file; when both markers
are found it replaces exactly the span from the first `START_MARKER` through
the first `END_MARKER` (inclusive) with the stripped block, leaving the
surrounding content byte-identical; when either marker is missing it appends
the block under a `"\n\n---\n"` separator after the right-stripped content;
and it is idempotent on any document that either contains no occurrence of
either marker or whose first `START_MARKER` lies at or before its first
`END_MARKER` (the claim's unconditional idempotence fails on marker-reordered
documents, see the counterexample). -/
theorem C8_inject_idempotent (ev lens : List Char)
    (hevS : ∀ j, ¬ occAt START_MARKER ev j) (hevE : ∀ j, ¬ occAt END_MARKER ev j)
    (hlnS : ∀ j, ¬ occAt START_MARKER lens j)
    (hlnE : ∀ j, ¬ occAt END_MARKER lens j) :
    inject_into_boot none ev lens = none ∧
    (∀ C si ei, findMark START_MARKER C = some si → findMark END_MARKER C = some ei →
      inject_into_boot (some C) ev lens =
        some (C.take si ++ coreBlock ev lens ++ C.drop (ei + END_MARKER.length))) ∧
    (∀ C, (findMark START_MARKER C = none ∨ findMark END_MARKER C = none) →
      inject_into_boot (some C) ev lens =
        some (rstripL C ++ SEP ++ mkBlock ev lens)) ∧
    (∀ C,
      ((findMark START_MARKER C = none ∧ findMark END_MARKER C = none) ∨
        (∃ si ei, findMark START_MARKER C = some si ∧
          findMark END_MARKER C = some ei ∧ si ≤ ei)) →
      (inject_into_boot (some C) ev lens).bind
          (fun c => inject_into_boot (some c) ev lens) =
        inject_into_boot (some C) ev lens) := by
  refine ⟨rfl, ?_, ?_, ?_⟩
  · intro C si ei h1 h2
    simp only [inject_into_boot, h1, h2, stripL_mkBlock]
  · intro C h
    rcases h with h | h
    · rcases hE : findMark END_MARKER C with _ | ei
      · simp only [inject_into_boot, h, hE]
      · simp only [inject_into_boot, h, hE]
    · rcases hS : findMark START_MARKER C with _ | si
      · simp only [inject_into_boot, hS, h]
      · simp only [inject_into_boot, hS, h]
  · intro C hcase
    rcases hcase with ⟨hS, hE⟩ | ⟨si, ei, hS, hE, hle⟩
    · have hout : inject_into_boot (some C) ev lens =
          some (rstripL C ++ SEP ++ mkBlock ev lens) := by
        simp only [inject_into_boot, hS, hE]
      have hsh : rstripL C ++ SEP ++ mkBlock ev lens =
          (rstripL C ++ SEP ++ ['\n']) ++ coreBlock ev lens ++ ['\n'] := by
        rw [mkBlock_eq]
        simp [List.append_assoc]
      have hPfact : ∀ pat, pat ≠ [] → (6 : ℕ) < pat.length →
          (∀ c ∈ pat, ¬ c = '\n') → (∀ j, ¬ occAt pat C j) →
          ∀ j, ¬ occAt pat (rstripL C ++ SEP ++ ['\n']) j := by
        intro pat hp hlen hnl hC j hj
        have hshape : rstripL C ++ SEP ++ ['\n'] =
            rstripL C ++ '\n' :: ['\n', '-', '-', '-', '\n', '\n'] := by
          rw [List.append_assoc]
          congr 1
        rw [hshape] at hj
        rcases occAt_append_nl hp hnl hj with h1 | ⟨j2, hj2, h2⟩
        · rcases rstripL_eq_take C with ⟨k, hk, hkeq⟩
          rw [hkeq] at h1
          exact hC j (occAt_take h1)
        · have h3 := occAt_le_length hp h2
          simp only [List.length_cons, List.length_nil] at h3
          omega
      have hPS2 : ∀ j, ¬ occAt START_MARKER (rstripL C ++ SEP ++ ['\n']) j :=
        hPfact START_MARKER (by decide) (by decide) (by decide)
          ((findMark_eq_none_iff (by decide) C).mp hS)
      have hPE2 : ∀ j, ¬ occAt END_MARKER (rstripL C ++ SEP ++ ['\n']) j :=
        hPfact END_MARKER (by decide) (by decide) (by decide)
          ((findMark_eq_none_iff (by decide) C).mp hE)
      rw [hout, hsh]
      exact inject_fixed ev lens (rstripL C ++ SEP ++ ['\n']) ['\n']
        hevE hlnE hPS2 hPE2
    · have hout : inject_into_boot (some C) ev lens =
          some (C.take si ++ coreBlock ev lens ++
            C.drop (ei + END_MARKER.length)) := by
        simp only [inject_into_boot, hS, hE, stripL_mkBlock]
      have hSfacts := (findMark_eq_some_iff (by decide : START_MARKER ≠ []) C si).mp hS
      have hEfacts := (findMark_eq_some_iff (by decide : END_MARKER ≠ []) C ei).mp hE
      have hs0 : 0 < START_MARKER.length := by decide
      have he0 : 0 < END_MARKER.length := by decide
      have htlen : (C.take si).length ≤ si := by
        rw [List.length_take]
        exact min_le_left _ _
      have hPS2 : ∀ j, ¬ occAt START_MARKER (C.take si) j := by
        intro j hj
        have h1 := occAt_le_length (by decide : START_MARKER ≠ []) hj
        exact hSfacts.2 j (by omega) (occAt_take hj)
      have hPE2 : ∀ j, ¬ occAt END_MARKER (C.take si) j := by
        intro j hj
        have h1 := occAt_le_length (by decide : END_MARKER ≠ []) hj
        exact hEfacts.2 j (by omega) (occAt_take hj)
      rw [hout]
      exact inject_fixed ev lens (C.take si) (C.drop (ei + END_MARKER.length))
        hevE hlnE hPS2 hPE2

/-- **C8 counterexample.**  The claim's unconditional idempotence is false: on
the existing document `END_MARKER ++ START_MARKER` (both markers present, but
the first `END_MARKER` before the first `START_MARKER`) a second injection
run produces a different document than the first. -/
theorem C8_counterexample :
    ¬ ((inject_into_boot (some (END_MARKER ++ START_MARKER)) ['E'] ['L']).bind
        (fun c => inject_into_boot (some c) ['E'] ['L']) =
      inject_into_boot (some (END_MARKER ++ START_MARKER)) ['E'] ['L']) := by
  decide

theorem C8_inject_idempotent_witness :
    (inject_into_boot (some "# Boot".toList) ['E'] ['L']).bind
        (fun c => inject_into_boot (some c) ['E'] ['L']) =
      inject_into_boot (some "# Boot".toList) ['E'] ['L'] :=
  (C8_inject_idempotent ['E'] ['L']
      (noOcc_of_ball (by decide) (by decide)) (noOcc_of_ball (by decide) (by decide))
      (noOcc_of_ball (by decide) (by decide))
      (noOcc_of_ball (by decide) (by decide))).2.2.2
    "# Boot".toList (Or.inl ⟨by decide, by decide⟩)

end MC
